import Mathlib

set_option maxHeartbeats 1000000

/-!
Shallow embedding of the block-indexed storage core of the repository
(internal/storage/block_storage.go and internal/storage/coin_storage.go).

The key-value store is modeled as a function from a structured key type to
optional logical values.  The Go code builds keys as strings from disjoint
namespace prefixes followed by identifier fields; that encoding is injective
per namespace (the index is the final slash-free segment), so the inductive
key type below is a faithful abstraction.  Values are stored encoded by a
deterministic codec; equal logical values encode to equal bytes, so values
are modeled as logical values and store equality is byte equality modulo
the deterministic codec.

A database transaction is modeled by threading a staged view of the store:
reads in a transaction see the transaction's own prior writes, a commit
atomically publishes the view, and an abort (discard) leaves the base store
untouched.  Commit itself is assumed to succeed (commit I/O failure is not
modeled); worker callbacks are modeled as pure outcomes and their execution
is recorded in an event trace.
-/

structure BlockIdentifier where
  hash : String
  index : Int
deriving DecidableEq, Repr

structure TransactionIdentifier where
  hash : String
deriving DecidableEq, Repr

/-- Metadata values: the code only ever asks whether a metadata entry is a
string (type assertion in tryAddingCoin / tryRemovingCoin). -/
inductive MetaVal where
  | str (s : String)
  | other
deriving DecidableEq, Repr

structure AccountIdentifier where
  address : String
deriving DecidableEq, Repr

structure Amount where
  value : String
deriving DecidableEq, Repr

structure Operation where
  opIndex : Int
  opType : String
  status : String
  account : AccountIdentifier
  amount : Option Amount
  metadata : List (String × MetaVal)
deriving DecidableEq, Repr

structure Transaction where
  transactionIdentifier : TransactionIdentifier
  operations : List Operation
deriving DecidableEq, Repr

structure Block where
  blockIdentifier : BlockIdentifier
  parentBlockIdentifier : BlockIdentifier
  timestamp : Int
  transactions : List Transaction
deriving DecidableEq, Repr

structure Coin where
  identifier : String
  transaction : Transaction
  operation : Operation
deriving DecidableEq, Repr

/-- Keys of the store, one constructor per namespace of the Go code:
head-block, block/hash/index, block-hash/hash, transaction-hash/hash,
coinNamespace/id, coinAccountNamespace/fingerprint. -/
inductive Key where
  | headBlock
  | block (hash : String) (index : Int)
  | blockHash (hash : String)
  | txHash (hash : String)
  | coin (identifier : String)
  | coinAccount (account : AccountIdentifier)
deriving DecidableEq, Repr

/-- Logical values stored under the keys (the deterministic codec makes
logical equality coincide with byte equality of encodings). -/
inductive Value where
  | blockIdent (bid : BlockIdentifier)
  | blockVal (b : Block)
  | marker
  | txMap (m : List (String × Int))
  | coinVal (c : Coin)
  | coinSet (ids : List String)
deriving DecidableEq, Repr

/-- Typed error kinds of the storage package.  Wrapping with fmt.Errorf
keeps the kind inspectable, so wrapped errors are identified with their
kind; errors created without a wrapped kind get a dedicated constructor. -/
inductive Err where
  | headBlockNotFound
  | blockNotFound
  | transactionNotFound
  | duplicateBlockHash
  | duplicateTransactionHash
  | codecError
  | lastProcessedBlock
  | outOfFuel
  | removeTransactionMissing
  | removeTransactionBlockMissing
  | parseCoinFailed
  | coinAlreadyExists
  | coinOwnerMissing
  | coinMissingFromAccount
  | getCoinFailed
  | workerFailed
deriving DecidableEq, Repr

def Store : Type := Key → Option Value

def emptyStore : Store := fun _ => none

/-- Transaction.Set on the staged view. -/
def upd (s : Store) (k : Key) (v : Value) : Store :=
  fun q => if q = k then some v else s q

/-- Transaction.Delete on the staged view. -/
def del (s : Store) (k : Key) : Store :=
  fun q => if q = k then none else s q

/-- Map value of the transaction-hash reverse index: does the map have an
entry for the given block hash. -/
def mapHasKey (m : List (String × Int)) (k : String) : Bool :=
  m.any (fun p => p.1 == k)

/-- Go map delete on the reverse-index mapping. -/
def mapErase (m : List (String × Int)) (k : String) : List (String × Int) :=
  m.filter (fun p => !(p.1 == k))

/-- GetHeadBlockIdentifier: reads the head-block key. -/
def getHeadBlockIdentifier (S : Store) : Except Err BlockIdentifier :=
  match S Key.headBlock with
  | none => .error .headBlockNotFound
  | some (.blockIdent bid) => .ok bid
  | some _ => .error .codecError

/-- GetBlock: reads block/hash/index. -/
def getBlock (S : Store) (bid : BlockIdentifier) : Except Err Block :=
  match S (Key.block bid.hash bid.index) with
  | none => .error .blockNotFound
  | some (.blockVal b) => .ok b
  | some _ => .error .codecError

/-- StoreHeadBlockIdentifier: writes the head-block key in the caller's
transaction. -/
def storeHeadBlockIdentifier (view : Store) (bid : BlockIdentifier) : Store :=
  upd view Key.headBlock (Value.blockIdent bid)

/-- storeBlockHash: fails with DuplicateBlockHash when block-hash/hash is
already present, else writes the empty presence marker. -/
def storeBlockHash (view : Store) (bid : BlockIdentifier) : Except Err Store :=
  match view (Key.blockHash bid.hash) with
  | some _ => .error .duplicateBlockHash
  | none => .ok (upd view (Key.blockHash bid.hash) Value.marker)

/-- storeTransactionHash: read (or initialize) the reverse-index mapping at
transaction-hash/hash; a mapping already keyed by this block hash fails
DuplicateTransactionHash; else insert blockHash to blockIndex and write. -/
def storeTransactionHash (bid : BlockIdentifier) (view : Store)
    (tid : TransactionIdentifier) : Except Err Store :=
  match view (Key.txHash tid.hash) with
  | none => .ok (upd view (Key.txHash tid.hash) (Value.txMap [(bid.hash, bid.index)]))
  | some (.txMap m) =>
    if mapHasKey m bid.hash then .error .duplicateTransactionHash
    else .ok (upd view (Key.txHash tid.hash) (Value.txMap (m ++ [(bid.hash, bid.index)])))
  | some _ => .error .codecError

/-- removeTransactionHash: the reverse-index entry must exist and contain
this block hash; delete it; an empty mapping deletes the whole key. -/
def removeTransactionHash (bid : BlockIdentifier) (view : Store)
    (tid : TransactionIdentifier) : Except Err Store :=
  match view (Key.txHash tid.hash) with
  | none => .error .removeTransactionMissing
  | some (.txMap m) =>
    if mapHasKey m bid.hash then
      let m2 := mapErase m bid.hash
      if m2 = [] then .ok (del view (Key.txHash tid.hash))
      else .ok (upd view (Key.txHash tid.hash) (Value.txMap m2))
    else .error .removeTransactionBlockMissing
  | some _ => .error .codecError

/-- The loop of AddBlock staging every transaction hash in order. -/
def storeAllTransactionHashes (bid : BlockIdentifier) (view : Store)
    (txs : List Transaction) : Except Err Store :=
  match txs with
  | [] => .ok view
  | t :: rest =>
    match storeTransactionHash bid view t.transactionIdentifier with
    | .error e => .error e
    | .ok v1 => storeAllTransactionHashes bid v1 rest

/-- The loop of RemoveBlock unstaging every transaction hash in order. -/
def removeAllTransactionHashes (bid : BlockIdentifier) (view : Store)
    (txs : List Transaction) : Except Err Store :=
  match txs with
  | [] => .ok view
  | t :: rest =>
    match removeTransactionHash bid view t.transactionIdentifier with
    | .error e => .error e
    | .ok v1 => removeAllTransactionHashes bid v1 rest

/-- A commit callback is a pure outcome: the error, if any, it reports when
run after commit. -/
def Callback : Type := Except Err Unit

/-- A BlockWorker: AddingBlock and RemovingBlock see the in-flight
transaction view and may stage further writes. -/
structure Worker where
  addingBlock : Block → Store → Except Err (Store × Option Callback)
  removingBlock : Block → Store → Except Err (Store × Option Callback)

/-- Observable events of one AddBlock or RemoveBlock call: the transaction
commit and each execution of a worker's commit callback (by the index of
the worker that returned it). -/
inductive Event where
  | committed
  | callbackRun (i : Nat)
deriving DecidableEq, Repr

/-- Outcome of one AddBlock or RemoveBlock call: the returned error (if
any), the persisted storage after the call, and the event trace. -/
structure CallResult where
  err : Option Err
  store : Store
  events : List Event

/-- The worker loop of callWorkersAndCommit: invoke each worker on the
in-flight view in registration order, collecting the callback slots. -/
def runWorkers (workers : List Worker) (b : Block) (adding : Bool)
    (view : Store) : Except Err (Store × List (Option Callback)) :=
  match workers with
  | [] => .ok (view, [])
  | w :: rest =>
    match (if adding then w.addingBlock b view else w.removingBlock b view) with
    | .error e => .error e
    | .ok (v1, cb) =>
      match runWorkers rest b adding v1 with
      | .error e => .error e
      | .ok (vf, cbs) => .ok (vf, cb :: cbs)

/-- The callback loop of callWorkersAndCommit: after commit, run each
non-null callback in order, stopping at (and propagating) the first
callback error.  The first argument is the index of the first slot. -/
def runCallbacks (i : Nat) (cbs : List (Option Callback)) : Option Err × List Event :=
  match cbs with
  | [] => (none, [])
  | none :: rest => runCallbacks (i + 1) rest
  | some cb :: rest =>
    match cb with
    | .error e => (some e, [Event.callbackRun i])
    | .ok _ =>
      let r := runCallbacks (i + 1) rest
      (r.1, Event.callbackRun i :: r.2)

/-- callWorkersAndCommit: run the workers inside the transaction; a worker
error discards the transaction (base store kept, no events); otherwise
commit the staged view and run the collected callbacks. -/
def callWorkersAndCommit (workers : List Worker) (b : Block)
    (base view : Store) (adding : Bool) : CallResult :=
  match runWorkers workers b adding view with
  | .error e => ⟨some e, base, []⟩
  | .ok (vf, cbs) =>
    let r := runCallbacks 0 cbs
    ⟨r.1, vf, Event.committed :: r.2⟩

/-- The staging part of AddBlock before workers run: write the block
record, update the head, guard and mark the block hash, and stage every
transaction-hash reverse-index update. -/
def stageBlock (S : Store) (b : Block) : Except Err Store :=
  let v1 := upd S (Key.block b.blockIdentifier.hash b.blockIdentifier.index) (Value.blockVal b)
  let v2 := storeHeadBlockIdentifier v1 b.blockIdentifier
  match storeBlockHash v2 b.blockIdentifier with
  | .error e => .error e
  | .ok v3 => storeAllTransactionHashes b.blockIdentifier v3 b.transactions

/-- AddBlock: stage the block in a writable transaction, then run the
workers and commit; any failure discards the transaction. -/
def addBlock (workers : List Worker) (S : Store) (b : Block) : CallResult :=
  match stageBlock S b with
  | .error e => ⟨some e, S, []⟩
  | .ok view => callWorkersAndCommit workers b S view true

/-- RemoveBlock: load the block, then in a writable transaction remove the
reverse-index entries, the block-hash marker and the block record, set the
head to the parent, and run the workers and commit. -/
def removeBlock (workers : List Worker) (S : Store) (bid : BlockIdentifier) : CallResult :=
  match getBlock S bid with
  | .error e => ⟨some e, S, []⟩
  | .ok b =>
    match removeAllTransactionHashes bid S b.transactions with
    | .error e => ⟨some e, S, []⟩
    | .ok v1 =>
      let v2 := del v1 (Key.blockHash bid.hash)
      let v3 := del v2 (Key.block bid.hash bid.index)
      let v4 := storeHeadBlockIdentifier v3 b.parentBlockIdentifier
      callWorkersAndCommit workers b S v4 false

/-- The removal loop of SetNewStartIndex: while the current identifier's
index is at least startIndex, load the block, remove it in its own
transaction, and walk to the parent.  The loop has no termination measure
in the source, so it is given fuel; exhausted fuel is a distinguished
error. -/
def removeBlocksLoop (workers : List Worker) (fuel : Nat) (S : Store)
    (curr : BlockIdentifier) (startIndex : Int) (removed : List BlockIdentifier) :
    Except Err (Store × List BlockIdentifier) :=
  if curr.index < startIndex then .ok (S, removed)
  else
    match fuel with
    | 0 => .error .outOfFuel
    | Nat.succ fuel1 =>
      match getBlock S curr with
      | .error e => .error e
      | .ok b =>
        let r := removeBlock workers S b.blockIdentifier
        match r.err with
        | some e => .error e
        | none =>
          removeBlocksLoop workers fuel1 r.store b.parentBlockIdentifier startIndex
            (removed ++ [b.blockIdentifier])

/-- SetNewStartIndex: a missing head is a no-op; a head below startIndex is
the last-processed-block error; otherwise run the removal loop from head.
The result carries the identifiers passed to RemoveBlock. -/
def setNewStartIndex (workers : List Worker) (fuel : Nat) (S : Store)
    (startIndex : Int) : Except Err (Store × List BlockIdentifier) :=
  match getHeadBlockIdentifier S with
  | .error .headBlockNotFound => .ok (S, [])
  | .error e => .error e
  | .ok head =>
    if head.index < startIndex then .error .lastProcessedBlock
    else removeBlocksLoop workers fuel S head startIndex []

/-- The walk of CreateBlockCache: until the cache is full, load the current
block, prepend its identifier, and walk to the parent; a failing load
returns what was collected.  The fuel is the remaining capacity, which the
source decrements by exactly one per iteration. -/
def blockCacheLoop (S : Store) (fuel : Nat) (curr : BlockIdentifier)
    (cache : List BlockIdentifier) : List BlockIdentifier :=
  match fuel with
  | 0 => cache
  | Nat.succ fuel1 =>
    match getBlock S curr with
    | .error _ => cache
    | .ok b => blockCacheLoop S fuel1 b.parentBlockIdentifier (b.blockIdentifier :: cache)

/-- CreateBlockCache: up to maxSize (syncer.PastBlockSize in the source)
most recent block identifiers, walking parent pointers from head; no head
yields the empty cache. -/
def createBlockCache (maxSize : Nat) (S : Store) : List BlockIdentifier :=
  match getHeadBlockIdentifier S with
  | .error _ => []
  | .ok head => blockCacheLoop S maxSize head []

/-- Largest int64 value, the initial accumulator of FindTransaction's
oldest-sighting fold. -/
def maxInt64 : Int := 9223372036854775807

/-- The oldest-sighting fold of FindTransaction over the reverse-index
mapping, started at maxInt64. -/
def minFold (m : List (String × Int)) (acc : Int) : Int :=
  match m with
  | [] => acc
  | p :: rest => minFold rest (if p.2 < acc then p.2 else acc)

/-- FindTransaction: an absent reverse-index key returns (nil, -1, nil); a
present key with no head is HeadBlockNotFound; otherwise return the
sighting identifiers and the head index minus the oldest sighting index. -/
def findTransaction (S : Store) (tid : TransactionIdentifier) :
    Except Err (Option (List BlockIdentifier) × Int) :=
  match S (Key.txHash tid.hash) with
  | none => .ok (none, -1)
  | some (.txMap m) =>
    match S Key.headBlock with
    | none => .error .headBlockNotFound
    | some (.blockIdent head) =>
      let ids := m.map (fun p => BlockIdentifier.mk p.1 p.2)
      let oldest := minFold m maxInt64
      .ok (some ids, head.index - oldest)
    | some _ => .error .codecError
  | some _ => .error .codecError

/-- Metadata key marking a created coin. -/
def coinCreated : String := "utxo_created"

/-- Metadata key marking a spent coin. -/
def coinSpent : String := "utxo_spent"

/-- Go map lookup on operation metadata. -/
def metaLookup (m : List (String × MetaVal)) (k : String) : Option MetaVal :=
  (m.find? (fun p => p.1 == k)).map (fun p => p.2)

/-- getAndDecodeCoins: read the account's coin-id set; an absent key is
reported as such rather than as an empty set. -/
def getAndDecodeCoins (view : Store) (account : AccountIdentifier) :
    Except Err (Option (List String)) :=
  match view (Key.coinAccount account) with
  | none => .ok none
  | some (.coinSet ids) => .ok (some ids)
  | some _ => .error .codecError

/-- encodeAndSetCoins: write the account's coin-id set. -/
def encodeAndSetCoins (view : Store) (account : AccountIdentifier)
    (ids : List String) : Store :=
  upd view (Key.coinAccount account) (Value.coinSet ids)

/-- tryAddingCoin: if the metadata key holds a string coin-id, store the
coin record and insert the id into the account's set; a non-string value
or an id already present in the set is an error. -/
def tryAddingCoin (view : Store) (blockTransaction : Transaction)
    (operation : Operation) (identiferKey : String) : Except Err Store :=
  match metaLookup operation.metadata identiferKey with
  | none => .ok view
  | some MetaVal.other => .error .parseCoinFailed
  | some (MetaVal.str coinIdentifier) =>
    let newCoin : Coin := ⟨coinIdentifier, blockTransaction, operation⟩
    let v1 := upd view (Key.coin coinIdentifier) (Value.coinVal newCoin)
    match getAndDecodeCoins v1 operation.account with
    | .error e => .error e
    | .ok optIds =>
      let ids := optIds.getD []
      if ids.contains coinIdentifier then .error .coinAlreadyExists
      else .ok (encodeAndSetCoins v1 operation.account (ids ++ [coinIdentifier]))

/-- tryRemovingCoin: if the metadata key holds a string coin-id and the
coin record exists, delete it and remove the id from the account's set,
which must exist and contain it; a missing coin record is a no-op. -/
def tryRemovingCoin (view : Store) (operation : Operation)
    (identiferKey : String) : Except Err Store :=
  match metaLookup operation.metadata identiferKey with
  | none => .ok view
  | some MetaVal.other => .error .parseCoinFailed
  | some (MetaVal.str coinIdentifier) =>
    match view (Key.coin coinIdentifier) with
    | none => .ok view
    | some _ =>
      let v1 := del view (Key.coin coinIdentifier)
      match getAndDecodeCoins v1 operation.account with
      | .error e => .error e
      | .ok none => .error .coinOwnerMissing
      | .ok (some ids) =>
        if ids.contains coinIdentifier then
          .ok (encodeAndSetCoins v1 operation.account
            (ids.filter (fun x => !(x == coinIdentifier))))
        else .error .coinMissingFromAccount

/-- The per-operation body of CoinStorage.AddingBlock: skip operations the
asserter reports unsuccessful and operations with a nil amount, else add
the created coin then remove the spent coin. -/
def coinAddOp (opSuccessful : Operation → Except Err Bool) (txn : Transaction)
    (view : Store) (operation : Operation) : Except Err Store :=
  match opSuccessful operation with
  | .error e => .error e
  | .ok success =>
    if !success then .ok view
    else if operation.amount = none then .ok view
    else
      match tryAddingCoin view txn operation coinCreated with
      | .error e => .error e
      | .ok v1 => tryRemovingCoin v1 operation coinSpent

/-- The operation loop of CoinStorage.AddingBlock over one transaction. -/
def coinAddOpsLoop (opSuccessful : Operation → Except Err Bool)
    (txn : Transaction) (view : Store) (ops : List Operation) : Except Err Store :=
  match ops with
  | [] => .ok view
  | op :: rest =>
    match coinAddOp opSuccessful txn view op with
    | .error e => .error e
    | .ok v1 => coinAddOpsLoop opSuccessful txn v1 rest

/-- The transaction loop of CoinStorage.AddingBlock. -/
def coinAddTxLoop (opSuccessful : Operation → Except Err Bool) (view : Store)
    (txs : List Transaction) : Except Err Store :=
  match txs with
  | [] => .ok view
  | t :: rest =>
    match coinAddOpsLoop opSuccessful t view t.operations with
    | .error e => .error e
    | .ok v1 => coinAddTxLoop opSuccessful v1 rest

/-- CoinStorage.AddingBlock: process every operation of every transaction,
returning no commit callback. -/
def coinAddingBlock (opSuccessful : Operation → Except Err Bool) (b : Block)
    (view : Store) : Except Err (Store × Option Callback) :=
  match coinAddTxLoop opSuccessful view b.transactions with
  | .error e => .error e
  | .ok v1 => .ok (v1, none)

/-- The coin-record loop of GetCoins: load and decode every coin of the
account's set; a missing record is an error, not a skip. -/
def getCoinsLoop (S : Store) (ids : List String) : Except Err (List Coin) :=
  match ids with
  | [] => .ok []
  | cid :: rest =>
    match S (Key.coin cid) with
    | none => .error .getCoinFailed
    | some (.coinVal c) =>
      match getCoinsLoop S rest with
      | .error e => .error e
      | .ok l => .ok (c :: l)
    | some _ => .error .codecError

/-- GetCoins: read-only load of the account's coin set and each of its
coin records; an unknown account yields the empty list. -/
def getCoins (S : Store) (account : AccountIdentifier) : Except Err (List Coin) :=
  match getAndDecodeCoins S account with
  | .error e => .error e
  | .ok none => .ok []
  | .ok (some ids) => getCoinsLoop S ids

/-! ### Pointwise lemmas about the store -/

@[simp]
theorem upd_same (s : Store) (k : Key) (v : Value) : upd s k v k = some v := by
  simp [upd]

theorem upd_ne (s : Store) (k q : Key) (v : Value) (h : q ≠ k) : upd s k v q = s q := by
  simp [upd, h]

@[simp]
theorem del_same (s : Store) (k : Key) : del s k k = none := by
  simp [del]

theorem del_ne (s : Store) (k q : Key) (h : q ≠ k) : del s k q = s q := by
  simp [del, h]

theorem upd_self (s : Store) (k : Key) (v : Value) (h : s k = some v) : upd s k v = s := by
  funext q
  by_cases hq : q = k
  · subst hq; simp [upd, h]
  · simp [upd, hq]

theorem del_of_none (s : Store) (k : Key) (h : s k = none) : del s k = s := by
  funext q
  by_cases hq : q = k
  · subst hq; simp [del, h]
  · simp [del, hq]

theorem del_upd_same (s : Store) (k : Key) (v : Value) : del (upd s k v) k = del s k := by
  funext q
  by_cases hq : q = k
  · subst hq; simp [del]
  · simp [del, upd, hq]

theorem upd_upd_same (s : Store) (k : Key) (v w : Value) :
    upd (upd s k v) k w = upd s k w := by
  funext q
  by_cases hq : q = k
  · subst hq; simp [upd]
  · simp [upd, hq]

theorem del_upd_ne (s : Store) (k k2 : Key) (v : Value) (h : k ≠ k2) :
    del (upd s k v) k2 = upd (del s k2) k v := by
  funext q
  by_cases hq : q = k2
  · subst hq; simp [del, upd, Ne.symm h]
  · by_cases hk : q = k
    · subst hk; simp [del, upd, hq]
    · simp [del, upd, hq, hk]

theorem upd_upd_ne (s : Store) (k k2 : Key) (v w : Value) (h : k ≠ k2) :
    upd (upd s k v) k2 w = upd (upd s k2 w) k v := by
  funext q
  by_cases hq : q = k2
  · subst hq; simp [upd, Ne.symm h]
  · by_cases hk : q = k
    · subst hk; simp [upd, hq]
    · simp [upd, hq, hk]

/-! ### Lemmas about the oldest-sighting fold -/

theorem minFold_le_init (m : List (String × Int)) (acc : Int) : minFold m acc ≤ acc := by
  induction m generalizing acc with
  | nil => simp [minFold]
  | cons p rest ih =>
    simp only [minFold]
    by_cases h : p.2 < acc
    · simp only [h, if_pos]
      exact le_trans (ih _) (le_of_lt h)
    · simp only [h, if_neg, not_false_iff]
      exact ih _

theorem minFold_le_mem (m : List (String × Int)) :
    ∀ (acc : Int) (p : String × Int), p ∈ m → minFold m acc ≤ p.2 := by
  induction m with
  | nil => intro acc p hp; cases hp
  | cons q rest ih =>
    intro acc p hp
    rcases List.mem_cons.mp hp with h | h
    · subst h
      simp only [minFold]
      by_cases hlt : p.2 < acc
      · simp only [hlt, if_pos]
        exact minFold_le_init _ _
      · simp only [hlt, if_neg, not_false_iff]
        exact le_trans (minFold_le_init _ _) (le_of_not_lt hlt)
    · exact ih _ p h

theorem minFold_eq_init_or_mem (m : List (String × Int)) (acc : Int) :
    minFold m acc = acc ∨ ∃ p ∈ m, minFold m acc = p.2 := by
  induction m generalizing acc with
  | nil => exact Or.inl rfl
  | cons q rest ih =>
    simp only [minFold]
    by_cases hlt : q.2 < acc
    · simp only [hlt, if_pos]
      rcases ih q.2 with h | ⟨p, hp, hq⟩
      · exact Or.inr ⟨q, List.mem_cons_self _ _, h⟩
      · exact Or.inr ⟨p, List.mem_cons_of_mem _ hp, hq⟩
    · simp only [hlt, if_neg, not_false_iff]
      rcases ih acc with h | ⟨p, hp, hq⟩
      · exact Or.inl h
      · exact Or.inr ⟨p, List.mem_cons_of_mem _ hp, hq⟩

/-- C5: FindTransaction returns (nil, -1, nil) when the reverse-index key
is absent; fails with HeadBlockNotFound when the key is present but the
head-block key is absent; and otherwise returns all sightings of the
stored mapping together with the head index minus the minimum sighting
index. -/
theorem findTransaction_spec :
    (∀ S tid, S (Key.txHash tid.hash) = none →
      findTransaction S tid = .ok (none, -1)) ∧
    (∀ S tid m, S (Key.txHash tid.hash) = some (Value.txMap m) →
      S Key.headBlock = none →
      findTransaction S tid = .error .headBlockNotFound) ∧
    (∀ S tid m head, S (Key.txHash tid.hash) = some (Value.txMap m) →
      S Key.headBlock = some (Value.blockIdent head) →
      m ≠ [] → (∀ p ∈ m, p.2 ≤ maxInt64) →
      ∃ d, findTransaction S tid =
          .ok (some (m.map fun p => BlockIdentifier.mk p.1 p.2), head.index - d) ∧
        d ∈ m.map (fun p => p.2) ∧ ∀ j ∈ m.map (fun p => p.2), d ≤ j) := by
  refine ⟨?_, ?_, ?_⟩
  · intro S tid h
    simp [findTransaction, h]
  · intro S tid m h hh
    simp [findTransaction, h, hh]
  · intro S tid m head h hh hne hbound
    refine ⟨minFold m maxInt64, ?_, ?_, ?_⟩
    · simp [findTransaction, h, hh]
    · rcases minFold_eq_init_or_mem m maxInt64 with heq | ⟨p, hp, hq⟩
      · rcases List.exists_mem_of_ne_nil m hne with ⟨p, hp⟩
        have h1 : minFold m maxInt64 ≤ p.2 := minFold_le_mem m maxInt64 p hp
        have h2 : p.2 ≤ maxInt64 := hbound p hp
        have h3 : minFold m maxInt64 = p.2 := le_antisymm h1 (by rw [heq]; exact h2)
        exact List.mem_map.mpr ⟨p, hp, h3.symm⟩
      · exact List.mem_map.mpr ⟨p, hp, hq.symm⟩
    · intro j hj
      rcases List.mem_map.mp hj with ⟨p, hp, hq⟩
      exact hq ▸ minFold_le_mem m maxInt64 p hp

/-- Concrete store with one reverse-index entry and no head. -/
def wStoreTxOnly : Store :=
  upd emptyStore (Key.txHash "t") (Value.txMap [("h1", 1)])

/-- Concrete store with one reverse-index entry and a head. -/
def wStoreTxHead : Store :=
  upd wStoreTxOnly Key.headBlock (Value.blockIdent ⟨"h1", 1⟩)

theorem findTransaction_spec_witness :
    findTransaction emptyStore ⟨"t"⟩ = .ok (none, -1) ∧
    findTransaction wStoreTxOnly ⟨"t"⟩ = .error .headBlockNotFound ∧
    ∃ d, findTransaction wStoreTxHead ⟨"t"⟩ =
        .ok (some ([(("h1" : String), (1 : Int))].map fun p => BlockIdentifier.mk p.1 p.2),
          (1 : Int) - d) ∧
      d ∈ [(("h1" : String), (1 : Int))].map (fun p => p.2) ∧
      ∀ j ∈ [(("h1" : String), (1 : Int))].map (fun p => p.2), d ≤ j := by
  refine ⟨findTransaction_spec.1 emptyStore ⟨"t"⟩ rfl, ?_, ?_⟩
  · exact findTransaction_spec.2.1 wStoreTxOnly ⟨"t"⟩ [("h1", 1)] rfl rfl
  · exact findTransaction_spec.2.2 wStoreTxHead ⟨"t"⟩ [("h1", 1)] ⟨"h1", 1⟩ rfl rfl
      (by decide) (by decide)

/-! ### CoinStorage.AddingBlock skip behaviour (claim C8) -/

/-- The skip condition of CoinStorage.AddingBlock: the asserter reports the
operation unsuccessful, or it reports success but the amount is nil. -/
def skippedOp (opSuccessful : Operation → Except Err Bool) (op : Operation) : Prop :=
  opSuccessful op = .ok false ∨ (opSuccessful op = .ok true ∧ op.amount = none)

theorem coinAddOp_skip (opSuccessful : Operation → Except Err Bool)
    (txn : Transaction) (S : Store) (op : Operation)
    (h : skippedOp opSuccessful op) : coinAddOp opSuccessful txn S op = .ok S := by
  rcases h with h | ⟨h, ha⟩
  · simp [coinAddOp, h]
  · simp [coinAddOp, h, ha]

theorem coinAddOpsLoop_skip (opSuccessful : Operation → Except Err Bool)
    (txn : Transaction) (ops : List Operation) :
    ∀ (S : Store), (∀ op ∈ ops, skippedOp opSuccessful op) →
      coinAddOpsLoop opSuccessful txn S ops = .ok S := by
  induction ops with
  | nil => intro S _; rfl
  | cons op rest ih =>
    intro S h
    have h1 := coinAddOp_skip opSuccessful txn S op (h op (List.mem_cons_self _ _))
    simp only [coinAddOpsLoop, h1]
    exact ih S (fun o ho => h o (List.mem_cons_of_mem _ ho))

theorem coinAddTxLoop_skip (opSuccessful : Operation → Except Err Bool)
    (txs : List Transaction) :
    ∀ (S : Store), (∀ t ∈ txs, ∀ op ∈ t.operations, skippedOp opSuccessful op) →
      coinAddTxLoop opSuccessful S txs = .ok S := by
  induction txs with
  | nil => intro S _; rfl
  | cons t rest ih =>
    intro S h
    have h1 := coinAddOpsLoop_skip opSuccessful t t.operations S
      (h t (List.mem_cons_self _ _))
    simp only [coinAddTxLoop, h1]
    exact ih S (fun t2 ht op hop => h t2 (List.mem_cons_of_mem _ ht) op hop)

/-- C8: an operation the asserter reports as not successful, or whose
amount is nil, creates no coin and spends no coin regardless of its
utxo_created or utxo_spent metadata: the per-operation body of
CoinStorage.AddingBlock leaves the staged store untouched, and a block all
of whose operations are skipped leaves storage untouched entirely. -/
theorem coinAddingBlock_skips_unsuccessful :
    (∀ (opSuccessful : Operation → Except Err Bool) (txn : Transaction)
      (S : Store) (op : Operation), skippedOp opSuccessful op →
        coinAddOp opSuccessful txn S op = .ok S) ∧
    (∀ (opSuccessful : Operation → Except Err Bool) (b : Block) (S : Store),
      (∀ t ∈ b.transactions, ∀ op ∈ t.operations, skippedOp opSuccessful op) →
        coinAddingBlock opSuccessful b S = .ok (S, none)) := by
  constructor
  · exact coinAddOp_skip
  · intro opSuccessful b S h
    simp [coinAddingBlock, coinAddTxLoop_skip opSuccessful b.transactions S h]

/-- A concrete asserter mapping only the status string success to a
successful operation. -/
def wOpSuccessful : Operation → Except Err Bool :=
  fun op => .ok (op.status == "success")

/-- A failed operation carrying utxo_created metadata. -/
def wFailedOp : Operation :=
  ⟨0, "transfer", "failure", ⟨"addr1"⟩, some ⟨"10"⟩, [("utxo_created", MetaVal.str "c1")]⟩

/-- A transaction holding only the failed operation. -/
def wFailedTx : Transaction := ⟨⟨"tx1"⟩, [wFailedOp]⟩

/-- A block holding only the failed operation. -/
def wFailedBlock : Block := ⟨⟨"h1", 1⟩, ⟨"h0", 0⟩, 100, [wFailedTx]⟩

theorem coinAddingBlock_skips_unsuccessful_witness :
    coinAddOp wOpSuccessful wFailedTx emptyStore wFailedOp = .ok emptyStore ∧
    coinAddingBlock wOpSuccessful wFailedBlock emptyStore = .ok (emptyStore, none) := by
  constructor
  · exact coinAddingBlock_skips_unsuccessful.1 wOpSuccessful wFailedTx emptyStore
      wFailedOp (Or.inl rfl)
  · refine coinAddingBlock_skips_unsuccessful.2 wOpSuccessful wFailedBlock emptyStore ?_
    intro t ht op hop
    have ht2 : t = wFailedTx := by
      simpa [wFailedBlock] using ht
    subst ht2
    have hop2 : op = wFailedOp := by
      simpa [wFailedTx] using hop
    subst hop2
    exact Or.inl rfl

/-! ### GetCoins on dangling coin identifiers (claim C10) -/

theorem getCoinsLoop_dangling (S : Store) (ids : List String) :
    ∀ (cid : String), cid ∈ ids → S (Key.coin cid) = none →
      ∀ l, getCoinsLoop S ids ≠ .ok l := by
  induction ids with
  | nil => intro cid h; cases h
  | cons c rest ih =>
    intro cid hmem hnone l
    rcases List.mem_cons.mp hmem with h | h
    · subst h
      simp [getCoinsLoop, hnone]
    · simp only [getCoinsLoop]
      match hc : S (Key.coin c) with
      | none => simp
      | some (Value.coinVal c2) =>
        match hr : getCoinsLoop S rest with
        | .error e => simp
        | .ok l2 => exact absurd hr (ih cid h hnone l2)
      | some (Value.blockIdent x) => simp
      | some (Value.blockVal x) => simp
      | some Value.marker => simp
      | some (Value.txMap x) => simp
      | some (Value.coinSet x) => simp

theorem getCoinsLoop_complete (S : Store) (ids : List String) :
    ∀ (l : List Coin), getCoinsLoop S ids = .ok l →
      ∀ cid ∈ ids, ∃ c, c ∈ l ∧ S (Key.coin cid) = some (Value.coinVal c) := by
  induction ids with
  | nil => intro l _ cid h; cases h
  | cons c0 rest ih =>
    intro l hok cid hmem
    simp only [getCoinsLoop] at hok
    match hc : S (Key.coin c0) with
    | none => rw [hc] at hok; cases hok
    | some (Value.coinVal c2) =>
      rw [hc] at hok
      match hr : getCoinsLoop S rest with
      | .error e => rw [hr] at hok; cases hok
      | .ok l2 =>
        rw [hr] at hok
        cases hok
        rcases List.mem_cons.mp hmem with h | h
        · subst h
          exact ⟨c2, List.mem_cons_self _ _, hc⟩
        · rcases ih l2 hr cid h with ⟨c3, hc3, hs⟩
          exact ⟨c3, List.mem_cons_of_mem _ hc3, hs⟩
    | some (Value.blockIdent x) => rw [hc] at hok; cases hok
    | some (Value.blockVal x) => rw [hc] at hok; cases hok
    | some Value.marker => rw [hc] at hok; cases hok
    | some (Value.txMap x) => rw [hc] at hok; cases hok
    | some (Value.coinSet x) => rw [hc] at hok; cases hok

/-- C10: when the stored coin-account set of an account contains a coin-id
with no corresponding coin record, GetCoins returns an error and never a
partial coin list; and every successful GetCoins result covers every
coin-id of the set. -/
theorem getCoins_no_partial_list :
    (∀ (S : Store) (account : AccountIdentifier) (ids : List String) (cid : String),
      S (Key.coinAccount account) = some (Value.coinSet ids) → cid ∈ ids →
      S (Key.coin cid) = none → ∀ l, getCoins S account ≠ .ok l) ∧
    (∀ (S : Store) (account : AccountIdentifier) (ids : List String) (l : List Coin),
      S (Key.coinAccount account) = some (Value.coinSet ids) →
      getCoins S account = .ok l →
      ∀ cid ∈ ids, ∃ c, c ∈ l ∧ S (Key.coin cid) = some (Value.coinVal c)) := by
  constructor
  · intro S account ids cid hacct hmem hnone l
    simp only [getCoins, getAndDecodeCoins, hacct]
    exact getCoinsLoop_dangling S ids cid hmem hnone l
  · intro S account ids l hacct hok cid hmem
    simp only [getCoins, getAndDecodeCoins, hacct] at hok
    exact getCoinsLoop_complete S ids l hok cid hmem

/-- A concrete store whose account set names a coin with no record. -/
def wDanglingStore : Store :=
  upd emptyStore (Key.coinAccount ⟨"addr1"⟩) (Value.coinSet ["c1"])

/-- A concrete coin record for the complete-list part. -/
def wCoin : Coin := ⟨"c1", wFailedTx, wFailedOp⟩

/-- A concrete store holding one account set and its coin record. -/
def wCoinStore : Store :=
  upd wDanglingStore (Key.coin "c1") (Value.coinVal wCoin)

theorem getCoins_no_partial_list_witness :
    getCoins wDanglingStore ⟨"addr1"⟩ ≠ .ok [] ∧
    ∃ c, c ∈ [wCoin] ∧ wCoinStore (Key.coin "c1") = some (Value.coinVal c) := by
  constructor
  · exact getCoins_no_partial_list.1 wDanglingStore ⟨"addr1"⟩ ["c1"] "c1" rfl
      (List.mem_singleton.mpr rfl) rfl []
  · exact getCoins_no_partial_list.2 wCoinStore ⟨"addr1"⟩ ["c1"] [wCoin] rfl rfl "c1"
      (List.mem_singleton.mpr rfl)

/-! ### Frame and commutation lemmas for the reverse-index loops -/

theorem del_del_comm (s : Store) (k k2 : Key) : del (del s k) k2 = del (del s k2) k := by
  funext q
  by_cases h1 : q = k
  · by_cases h2 : q = k2 <;> simp [del, h1, h2]
  · by_cases h2 : q = k2 <;> simp [del, h1, h2]

theorem storeTransactionHash_frame (bid : BlockIdentifier) (v out : Store)
    (t : TransactionIdentifier) (hok : storeTransactionHash bid v t = .ok out)
    (k : Key) (hk : k ≠ Key.txHash t.hash) : out k = v k := by
  simp only [storeTransactionHash] at hok
  match hv : v (Key.txHash t.hash) with
  | none =>
    rw [hv] at hok
    cases hok
    exact upd_ne v (Key.txHash t.hash) k _ hk
  | some (Value.txMap m) =>
    rw [hv] at hok
    by_cases hm : mapHasKey m bid.hash = true
    · simp [hm] at hok
    · simp [hm] at hok
      rw [← hok]
      exact upd_ne v (Key.txHash t.hash) k _ hk
  | some (Value.blockIdent x) => rw [hv] at hok; cases hok
  | some (Value.blockVal x) => rw [hv] at hok; cases hok
  | some Value.marker => rw [hv] at hok; cases hok
  | some (Value.coinVal x) => rw [hv] at hok; cases hok
  | some (Value.coinSet x) => rw [hv] at hok; cases hok

theorem removeTransactionHash_frame (bid : BlockIdentifier) (v out : Store)
    (t : TransactionIdentifier) (hok : removeTransactionHash bid v t = .ok out)
    (k : Key) (hk : k ≠ Key.txHash t.hash) : out k = v k := by
  simp only [removeTransactionHash] at hok
  match hv : v (Key.txHash t.hash) with
  | none => rw [hv] at hok; cases hok
  | some (Value.txMap m) =>
    rw [hv] at hok
    by_cases hm : mapHasKey m bid.hash = true
    · by_cases hz : mapErase m bid.hash = []
      · simp [hm, hz] at hok
        rw [← hok]
        exact del_ne v (Key.txHash t.hash) k hk
      · simp [hm, hz] at hok
        rw [← hok]
        exact upd_ne v (Key.txHash t.hash) k _ hk
    · simp [hm] at hok
  | some (Value.blockIdent x) => rw [hv] at hok; cases hok
  | some (Value.blockVal x) => rw [hv] at hok; cases hok
  | some Value.marker => rw [hv] at hok; cases hok
  | some (Value.coinVal x) => rw [hv] at hok; cases hok
  | some (Value.coinSet x) => rw [hv] at hok; cases hok

theorem storeAll_frame (bid : BlockIdentifier) (txs : List Transaction) :
    ∀ (v out : Store), storeAllTransactionHashes bid v txs = .ok out →
    ∀ (k : Key), (∀ t ∈ txs, k ≠ Key.txHash t.transactionIdentifier.hash) →
      out k = v k := by
  induction txs with
  | nil => intro v out hok k _; cases hok; rfl
  | cons t0 rest ih =>
    intro v out hok k hk
    simp only [storeAllTransactionHashes] at hok
    match hs : storeTransactionHash bid v t0.transactionIdentifier with
    | .error e => rw [hs] at hok; cases hok
    | .ok v1 =>
      rw [hs] at hok
      have h1 : out k = v1 k :=
        ih v1 out hok k (fun t ht => hk t (List.mem_cons_of_mem _ ht))
      have h2 : v1 k = v k :=
        storeTransactionHash_frame bid v v1 t0.transactionIdentifier hs k
          (hk t0 (List.mem_cons_self _ _))
      exact h1.trans h2

theorem removeAll_frame (bid : BlockIdentifier) (txs : List Transaction) :
    ∀ (v out : Store), removeAllTransactionHashes bid v txs = .ok out →
    ∀ (k : Key), (∀ t ∈ txs, k ≠ Key.txHash t.transactionIdentifier.hash) →
      out k = v k := by
  induction txs with
  | nil => intro v out hok k _; cases hok; rfl
  | cons t0 rest ih =>
    intro v out hok k hk
    simp only [removeAllTransactionHashes] at hok
    match hs : removeTransactionHash bid v t0.transactionIdentifier with
    | .error e => rw [hs] at hok; cases hok
    | .ok v1 =>
      rw [hs] at hok
      have h1 : out k = v1 k :=
        ih v1 out hok k (fun t ht => hk t (List.mem_cons_of_mem _ ht))
      have h2 : v1 k = v k :=
        removeTransactionHash_frame bid v v1 t0.transactionIdentifier hs k
          (hk t0 (List.mem_cons_self _ _))
      exact h1.trans h2

theorem removeTransactionHash_upd_comm (bid : BlockIdentifier) (v : Store) (k : Key)
    (x : Value) (t : TransactionIdentifier) (h : k ≠ Key.txHash t.hash) :
    removeTransactionHash bid (upd v k x) t =
      (removeTransactionHash bid v t).map (fun s => upd s k x) := by
  have hread : upd v k x (Key.txHash t.hash) = v (Key.txHash t.hash) :=
    upd_ne v k (Key.txHash t.hash) x (Ne.symm h)
  match hv : v (Key.txHash t.hash) with
  | none => simp [removeTransactionHash, Except.map, hread.trans hv, hv]
  | some (Value.txMap m) =>
    by_cases hm : mapHasKey m bid.hash = true
    · by_cases hz : mapErase m bid.hash = []
      · simp [removeTransactionHash, Except.map, hread.trans hv, hv, hm, hz,
          del_upd_ne v k (Key.txHash t.hash) x h]
      · simp [removeTransactionHash, Except.map, hread.trans hv, hv, hm, hz,
          upd_upd_ne v k (Key.txHash t.hash) x (Value.txMap (mapErase m bid.hash)) h]
    · simp [removeTransactionHash, Except.map, hread.trans hv, hv, hm]
  | some (Value.blockIdent y) => simp [removeTransactionHash, Except.map, hread.trans hv, hv]
  | some (Value.blockVal y) => simp [removeTransactionHash, Except.map, hread.trans hv, hv]
  | some Value.marker => simp [removeTransactionHash, Except.map, hread.trans hv, hv]
  | some (Value.coinVal y) => simp [removeTransactionHash, Except.map, hread.trans hv, hv]
  | some (Value.coinSet y) => simp [removeTransactionHash, Except.map, hread.trans hv, hv]

theorem removeTransactionHash_del_comm (bid : BlockIdentifier) (v : Store) (k : Key)
    (t : TransactionIdentifier) (h : k ≠ Key.txHash t.hash) :
    removeTransactionHash bid (del v k) t =
      (removeTransactionHash bid v t).map (fun s => del s k) := by
  have hread : del v k (Key.txHash t.hash) = v (Key.txHash t.hash) :=
    del_ne v k (Key.txHash t.hash) (Ne.symm h)
  match hv : v (Key.txHash t.hash) with
  | none => simp [removeTransactionHash, Except.map, hread.trans hv, hv]
  | some (Value.txMap m) =>
    by_cases hm : mapHasKey m bid.hash = true
    · by_cases hz : mapErase m bid.hash = []
      · simp [removeTransactionHash, Except.map, hread.trans hv, hv, hm, hz,
          del_del_comm v k (Key.txHash t.hash)]
      · simp [removeTransactionHash, Except.map, hread.trans hv, hv, hm, hz,
          (del_upd_ne v (Key.txHash t.hash) k (Value.txMap (mapErase m bid.hash))
            (Ne.symm h)).symm]
    · simp [removeTransactionHash, Except.map, hread.trans hv, hv, hm]
  | some (Value.blockIdent y) => simp [removeTransactionHash, Except.map, hread.trans hv, hv]
  | some (Value.blockVal y) => simp [removeTransactionHash, Except.map, hread.trans hv, hv]
  | some Value.marker => simp [removeTransactionHash, Except.map, hread.trans hv, hv]
  | some (Value.coinVal y) => simp [removeTransactionHash, Except.map, hread.trans hv, hv]
  | some (Value.coinSet y) => simp [removeTransactionHash, Except.map, hread.trans hv, hv]

theorem removeAll_upd_comm (bid : BlockIdentifier) (txs : List Transaction) (k : Key)
    (x : Value) (hk : ∀ t ∈ txs, k ≠ Key.txHash t.transactionIdentifier.hash) :
    ∀ (v : Store), removeAllTransactionHashes bid (upd v k x) txs =
      (removeAllTransactionHashes bid v txs).map (fun s => upd s k x) := by
  induction txs with
  | nil => intro v; rfl
  | cons t0 rest ih =>
    intro v
    have h0 := removeTransactionHash_upd_comm bid v k x t0.transactionIdentifier
      (hk t0 (List.mem_cons_self _ _))
    simp only [removeAllTransactionHashes, h0]
    match hs : removeTransactionHash bid v t0.transactionIdentifier with
    | .error e => simp [Except.map]
    | .ok v1 =>
      simp only [Except.map]
      exact ih (fun t ht => hk t (List.mem_cons_of_mem _ ht)) v1

theorem removeAll_del_comm (bid : BlockIdentifier) (txs : List Transaction) (k : Key)
    (hk : ∀ t ∈ txs, k ≠ Key.txHash t.transactionIdentifier.hash) :
    ∀ (v : Store), removeAllTransactionHashes bid (del v k) txs =
      (removeAllTransactionHashes bid v txs).map (fun s => del s k) := by
  induction txs with
  | nil => intro v; rfl
  | cons t0 rest ih =>
    intro v
    have h0 := removeTransactionHash_del_comm bid v k t0.transactionIdentifier
      (hk t0 (List.mem_cons_self _ _))
    simp only [removeAllTransactionHashes, h0]
    match hs : removeTransactionHash bid v t0.transactionIdentifier with
    | .error e => simp [Except.map]
    | .ok v1 =>
      simp only [Except.map]
      exact ih (fun t ht => hk t (List.mem_cons_of_mem _ ht)) v1

/-! ### Reverse-index map helper lemmas -/

theorem mapHasKey_append_self (m : List (String × Int)) (bh : String) (i : Int) :
    mapHasKey (m ++ [(bh, i)]) bh = true := by
  simp [mapHasKey]

theorem mapErase_append_self (m : List (String × Int)) (bh : String) (i : Int)
    (h : mapHasKey m bh = false) : mapErase (m ++ [(bh, i)]) bh = m := by
  simp only [mapErase, List.filter_append]
  have h2 : List.filter (fun p => !(p.1 == bh)) [(bh, i)] = [] := by simp
  rw [h2, List.append_nil]
  apply List.filter_eq_self.mpr
  intro p hp
  simp only [mapHasKey, List.any_eq_false] at h
  simpa using h p hp

/-- Success characterization of storeTransactionHash: the key was fresh, or
it held a mapping not yet containing this block hash. -/
theorem storeTransactionHash_ok (bid : BlockIdentifier) (v : Store)
    (t : TransactionIdentifier) (out : Store)
    (hok : storeTransactionHash bid v t = .ok out) :
    (v (Key.txHash t.hash) = none ∧
      out = upd v (Key.txHash t.hash) (Value.txMap [(bid.hash, bid.index)])) ∨
    ∃ m, v (Key.txHash t.hash) = some (Value.txMap m) ∧ mapHasKey m bid.hash = false ∧
      out = upd v (Key.txHash t.hash) (Value.txMap (m ++ [(bid.hash, bid.index)])) := by
  simp only [storeTransactionHash] at hok
  match hv : v (Key.txHash t.hash) with
  | none =>
    rw [hv] at hok
    cases hok
    exact Or.inl ⟨rfl, rfl⟩
  | some (Value.txMap m) =>
    rw [hv] at hok
    by_cases hm : mapHasKey m bid.hash = true
    · simp [hm] at hok
    · simp [hm] at hok
      exact Or.inr ⟨m, rfl, (by simpa using hm), hok.symm⟩
  | some (Value.blockIdent x) => rw [hv] at hok; cases hok
  | some (Value.blockVal x) => rw [hv] at hok; cases hok
  | some Value.marker => rw [hv] at hok; cases hok
  | some (Value.coinVal x) => rw [hv] at hok; cases hok
  | some (Value.coinSet x) => rw [hv] at hok; cases hok

/-- After staging succeeds, no transaction of the list carries a hash whose
reverse-index mapping already contained this block hash at loop entry: the
loop would have failed with DuplicateTransactionHash. -/
theorem storeAll_no_rehash (bid : BlockIdentifier) (txs : List Transaction) :
    ∀ (v out : Store), storeAllTransactionHashes bid v txs = .ok out →
    ∀ (hsh : String) (m : List (String × Int)),
      v (Key.txHash hsh) = some (Value.txMap m) → mapHasKey m bid.hash = true →
      ∀ t ∈ txs, t.transactionIdentifier.hash ≠ hsh := by
  induction txs with
  | nil => intro v out _ hsh m _ _ t ht; cases ht
  | cons t0 rest ih =>
    intro v out hok hsh m hv hm t ht
    simp only [storeAllTransactionHashes] at hok
    match hs : storeTransactionHash bid v t0.transactionIdentifier with
    | .error e => rw [hs] at hok; cases hok
    | .ok v1 =>
      rw [hs] at hok
      by_cases hth : t0.transactionIdentifier.hash = hsh
      · exfalso
        simp only [storeTransactionHash] at hs
        rw [hth, hv] at hs
        simp [hm] at hs
      · rcases List.mem_cons.mp ht with rfl | hrest
        · exact hth
        · have hne : Key.txHash hsh ≠ Key.txHash t0.transactionIdentifier.hash :=
            fun hc => hth (Key.txHash.inj hc).symm
          have hv1 : v1 (Key.txHash hsh) = some (Value.txMap m) :=
            (storeTransactionHash_frame bid v v1 t0.transactionIdentifier hs
              (Key.txHash hsh) hne).trans hv
          exact ih v1 out hok hsh m hv1 hm t hrest

/-- A successfully staged block has pairwise distinct transaction hashes. -/
theorem storeAll_pairwise (bid : BlockIdentifier) (txs : List Transaction) :
    ∀ (v out : Store), storeAllTransactionHashes bid v txs = .ok out →
      List.Pairwise
        (fun a b => a.transactionIdentifier.hash ≠ b.transactionIdentifier.hash) txs := by
  induction txs with
  | nil => intro v out _; exact List.Pairwise.nil
  | cons t0 rest ih =>
    intro v out hok
    simp only [storeAllTransactionHashes] at hok
    match hs : storeTransactionHash bid v t0.transactionIdentifier with
    | .error e => rw [hs] at hok; cases hok
    | .ok v1 =>
      rw [hs] at hok
      refine List.Pairwise.cons ?_ (ih v1 out hok)
      intro t ht
      rcases storeTransactionHash_ok bid v t0.transactionIdentifier v1 hs with
        ⟨hnone, hout1⟩ | ⟨m, hsome, hfalse, hout1⟩
      · have hv1 : v1 (Key.txHash t0.transactionIdentifier.hash) =
            some (Value.txMap [(bid.hash, bid.index)]) := by rw [hout1]; simp
        have hne := storeAll_no_rehash bid rest v1 out hok
          t0.transactionIdentifier.hash [(bid.hash, bid.index)] hv1
          (by simp [mapHasKey]) t ht
        exact fun hc => hne hc.symm
      · have hv1 : v1 (Key.txHash t0.transactionIdentifier.hash) =
            some (Value.txMap (m ++ [(bid.hash, bid.index)])) := by rw [hout1]; simp
        have hne := storeAll_no_rehash bid rest v1 out hok
          t0.transactionIdentifier.hash (m ++ [(bid.hash, bid.index)]) hv1
          (mapHasKey_append_self m bid.hash bid.index) t ht
        exact fun hc => hne hc.symm

/-- The reverse-index involution: removing the transaction hashes of a
successfully staged block restores the view exactly, provided none of the
touched keys held a stored empty mapping. -/
theorem storeAll_removeAll (bid : BlockIdentifier) (txs : List Transaction) :
    ∀ (v out : Store),
      (∀ t ∈ txs, v (Key.txHash t.transactionIdentifier.hash) ≠ some (Value.txMap [])) →
      storeAllTransactionHashes bid v txs = .ok out →
      removeAllTransactionHashes bid out txs = .ok v := by
  induction txs with
  | nil => intro v out _ hok; cases hok; rfl
  | cons t0 rest ih =>
    intro v out hemp hok
    simp only [storeAllTransactionHashes] at hok
    match hs : storeTransactionHash bid v t0.transactionIdentifier with
    | .error e => rw [hs] at hok; cases hok
    | .ok v1 =>
      rw [hs] at hok
      rcases storeTransactionHash_ok bid v t0.transactionIdentifier v1 hs with
        ⟨hnone, hout1⟩ | ⟨m, hsome, hfalse, hout1⟩
      · have hv1 : v1 (Key.txHash t0.transactionIdentifier.hash) =
            some (Value.txMap [(bid.hash, bid.index)]) := by rw [hout1]; simp
        have hno : ∀ t ∈ rest, t.transactionIdentifier.hash ≠ t0.transactionIdentifier.hash :=
          storeAll_no_rehash bid rest v1 out hok t0.transactionIdentifier.hash
            [(bid.hash, bid.index)] hv1 (by simp [mapHasKey])
        have hkey : ∀ t ∈ rest,
            Key.txHash t0.transactionIdentifier.hash ≠ Key.txHash t.transactionIdentifier.hash :=
          fun t ht hc => hno t ht (Key.txHash.inj hc).symm
        have hframe : out (Key.txHash t0.transactionIdentifier.hash) =
            some (Value.txMap [(bid.hash, bid.index)]) :=
          (storeAll_frame bid rest v1 out hok _ hkey).trans hv1
        have hstep : removeTransactionHash bid out t0.transactionIdentifier =
            .ok (del out (Key.txHash t0.transactionIdentifier.hash)) := by
          simp [removeTransactionHash, hframe, mapHasKey, mapErase]
        simp only [removeAllTransactionHashes, hstep]
        have hemp1 : ∀ t ∈ rest,
            v1 (Key.txHash t.transactionIdentifier.hash) ≠ some (Value.txMap []) := by
          intro t ht
          rw [hout1, upd_ne v _ _ _ (Ne.symm (hkey t ht))]
          exact hemp t (List.mem_cons_of_mem _ ht)
        have hih := ih v1 out hemp1 hok
        rw [removeAll_del_comm bid rest (Key.txHash t0.transactionIdentifier.hash) hkey out,
          hih]
        simp only [Except.map]
        rw [hout1, del_upd_same, del_of_none v _ hnone]
      · have hv1 : v1 (Key.txHash t0.transactionIdentifier.hash) =
            some (Value.txMap (m ++ [(bid.hash, bid.index)])) := by rw [hout1]; simp
        have hno : ∀ t ∈ rest, t.transactionIdentifier.hash ≠ t0.transactionIdentifier.hash :=
          storeAll_no_rehash bid rest v1 out hok t0.transactionIdentifier.hash
            (m ++ [(bid.hash, bid.index)]) hv1 (mapHasKey_append_self m bid.hash bid.index)
        have hkey : ∀ t ∈ rest,
            Key.txHash t0.transactionIdentifier.hash ≠ Key.txHash t.transactionIdentifier.hash :=
          fun t ht hc => hno t ht (Key.txHash.inj hc).symm
        have hframe : out (Key.txHash t0.transactionIdentifier.hash) =
            some (Value.txMap (m ++ [(bid.hash, bid.index)])) :=
          (storeAll_frame bid rest v1 out hok _ hkey).trans hv1
        have hmne : m ≠ [] := by
          intro hmz
          exact hemp t0 (List.mem_cons_self _ _) (by rw [hsome, hmz])
        have hstep : removeTransactionHash bid out t0.transactionIdentifier =
            .ok (upd out (Key.txHash t0.transactionIdentifier.hash) (Value.txMap m)) := by
          simp [removeTransactionHash, hframe, mapHasKey_append_self,
            mapErase_append_self m bid.hash bid.index hfalse, hmne]
        simp only [removeAllTransactionHashes, hstep]
        have hemp1 : ∀ t ∈ rest,
            v1 (Key.txHash t.transactionIdentifier.hash) ≠ some (Value.txMap []) := by
          intro t ht
          rw [hout1, upd_ne v _ _ _ (Ne.symm (hkey t ht))]
          exact hemp t (List.mem_cons_of_mem _ ht)
        have hih := ih v1 out hemp1 hok
        rw [removeAll_upd_comm bid rest (Key.txHash t0.transactionIdentifier.hash)
          (Value.txMap m) hkey out, hih]
        simp only [Except.map]
        rw [hout1, upd_upd_same, upd_self v _ _ hsome]

/-! ### Decomposition of AddBlock staging -/

theorem storeBlockHash_ok (v : Store) (bid : BlockIdentifier) (out : Store)
    (hok : storeBlockHash v bid = .ok out) :
    v (Key.blockHash bid.hash) = none ∧
      out = upd v (Key.blockHash bid.hash) Value.marker := by
  simp only [storeBlockHash] at hok
  match hv : v (Key.blockHash bid.hash) with
  | none => rw [hv] at hok; cases hok; exact ⟨rfl, rfl⟩
  | some x => rw [hv] at hok; cases hok

theorem stageBlock_ok_decomp (S : Store) (B : Block) (view : Store)
    (hok : stageBlock S B = .ok view) :
    S (Key.blockHash B.blockIdentifier.hash) = none ∧
    storeAllTransactionHashes B.blockIdentifier
      (upd (upd (upd S (Key.block B.blockIdentifier.hash B.blockIdentifier.index)
        (Value.blockVal B)) Key.headBlock (Value.blockIdent B.blockIdentifier))
        (Key.blockHash B.blockIdentifier.hash) Value.marker) B.transactions = .ok view := by
  simp only [stageBlock, storeHeadBlockIdentifier] at hok
  match hsb : storeBlockHash
      (upd (upd S (Key.block B.blockIdentifier.hash B.blockIdentifier.index)
        (Value.blockVal B)) Key.headBlock (Value.blockIdent B.blockIdentifier))
      B.blockIdentifier with
  | .error e => rw [hsb] at hok; cases hok
  | .ok v3 =>
    rw [hsb] at hok
    rcases storeBlockHash_ok _ B.blockIdentifier v3 hsb with ⟨hnone, hv3⟩
    constructor
    · simpa [upd] using hnone
    · rw [hv3] at hok
      exact hok

theorem callWorkersAndCommit_nil (b : Block) (base view : Store) (adding : Bool) :
    callWorkersAndCommit [] b base view adding = ⟨none, view, [Event.committed]⟩ := rfl

theorem addBlock_nil_of_stage (S : Store) (B : Block) (view : Store)
    (h : stageBlock S B = .ok view) :
    addBlock [] S B = ⟨none, view, [Event.committed]⟩ := by
  unfold addBlock
  rw [h]
  rfl

theorem addBlock_nil_err_decomp (S : Store) (B : Block)
    (h : (addBlock [] S B).err = none) :
    ∃ view, stageBlock S B = .ok view ∧
      addBlock [] S B = ⟨none, view, [Event.committed]⟩ := by
  match hst : stageBlock S B with
  | .error e =>
    exfalso
    unfold addBlock at h
    rw [hst] at h
    simp at h
  | .ok view => exact ⟨view, rfl, addBlock_nil_of_stage S B view hst⟩

/-- The genesis-style block of the concrete scenarios. -/
def cexBlock : Block := ⟨⟨"h1", 1⟩, ⟨"h0", 0⟩, 5, []⟩

/-- C1 counterexample: from the empty store, AddBlock of a block and
RemoveBlock of its identifier both succeed, yet the head-block key ends up
holding the block's parent identifier although it was absent before the
add, so storage is not restored to its pre-Add state. -/
theorem addBlock_removeBlock_not_involutive :
    (addBlock [] emptyStore cexBlock).err = none ∧
    (removeBlock [] (addBlock [] emptyStore cexBlock).store
      cexBlock.blockIdentifier).err = none ∧
    (removeBlock [] (addBlock [] emptyStore cexBlock).store
        cexBlock.blockIdentifier).store Key.headBlock ≠
      emptyStore Key.headBlock := by
  refine ⟨rfl, rfl, ?_⟩
  decide

/-- C1 (amended): with no workers registered, if AddBlock(B) succeeds from
S, the head pointer of S held exactly B's parent identifier, S held no
block record under B's identifier, and none of B's transaction hashes was
stored with an empty reverse-index mapping, then a subsequent
RemoveBlock(B.id) succeeds and restores storage exactly to S (modulo the
deterministic codec). -/
theorem addBlock_removeBlock_involution (S : Store) (B : Block)
    (hAdd : (addBlock [] S B).err = none)
    (hHead : S Key.headBlock = some (Value.blockIdent B.parentBlockIdentifier))
    (hNoRec : S (Key.block B.blockIdentifier.hash B.blockIdentifier.index) = none)
    (hNoEmpty : ∀ t ∈ B.transactions,
      S (Key.txHash t.transactionIdentifier.hash) ≠ some (Value.txMap [])) :
    removeBlock [] (addBlock [] S B).store B.blockIdentifier =
      ⟨none, S, [Event.committed]⟩ := by
  rcases addBlock_nil_err_decomp S B hAdd with ⟨view, hst, hadd⟩
  rcases stageBlock_ok_decomp S B view hst with ⟨hbh, hall⟩
  rw [hadd]
  show removeBlock [] view B.blockIdentifier = ⟨none, S, [Event.committed]⟩
  have hview_b : view (Key.block B.blockIdentifier.hash B.blockIdentifier.index) =
      some (Value.blockVal B) := by
    rw [storeAll_frame B.blockIdentifier B.transactions _ view hall _
      (fun t ht hc => Key.noConfusion hc)]
    simp [upd]
  have hgb : getBlock view B.blockIdentifier = .ok B := by
    simp [getBlock, hview_b]
  have hNoEmpty3 : ∀ t ∈ B.transactions,
      (upd (upd (upd S (Key.block B.blockIdentifier.hash B.blockIdentifier.index)
        (Value.blockVal B)) Key.headBlock (Value.blockIdent B.blockIdentifier))
        (Key.blockHash B.blockIdentifier.hash) Value.marker)
        (Key.txHash t.transactionIdentifier.hash) ≠ some (Value.txMap []) := by
    intro t ht
    have hkey : (upd (upd (upd S (Key.block B.blockIdentifier.hash B.blockIdentifier.index)
        (Value.blockVal B)) Key.headBlock (Value.blockIdent B.blockIdentifier))
        (Key.blockHash B.blockIdentifier.hash) Value.marker)
        (Key.txHash t.transactionIdentifier.hash) =
        S (Key.txHash t.transactionIdentifier.hash) := by
      simp [upd]
    rw [hkey]
    exact hNoEmpty t ht
  have hrall : removeAllTransactionHashes B.blockIdentifier view B.transactions =
      .ok (upd (upd (upd S (Key.block B.blockIdentifier.hash B.blockIdentifier.index)
        (Value.blockVal B)) Key.headBlock (Value.blockIdent B.blockIdentifier))
        (Key.blockHash B.blockIdentifier.hash) Value.marker) :=
    storeAll_removeAll B.blockIdentifier B.transactions _ view hNoEmpty3 hall
  have hfin : upd (del (del (upd (upd (upd S
      (Key.block B.blockIdentifier.hash B.blockIdentifier.index) (Value.blockVal B))
      Key.headBlock (Value.blockIdent B.blockIdentifier))
      (Key.blockHash B.blockIdentifier.hash) Value.marker)
      (Key.blockHash B.blockIdentifier.hash))
      (Key.block B.blockIdentifier.hash B.blockIdentifier.index))
      Key.headBlock (Value.blockIdent B.parentBlockIdentifier) = S := by
    rw [del_upd_same]
    have h1 : del (upd (upd S (Key.block B.blockIdentifier.hash B.blockIdentifier.index)
        (Value.blockVal B)) Key.headBlock (Value.blockIdent B.blockIdentifier))
        (Key.blockHash B.blockIdentifier.hash) =
        upd (upd S (Key.block B.blockIdentifier.hash B.blockIdentifier.index)
        (Value.blockVal B)) Key.headBlock (Value.blockIdent B.blockIdentifier) := by
      apply del_of_none
      simp [upd, hbh]
    rw [h1]
    rw [del_upd_ne (upd S (Key.block B.blockIdentifier.hash B.blockIdentifier.index)
      (Value.blockVal B)) Key.headBlock
      (Key.block B.blockIdentifier.hash B.blockIdentifier.index)
      (Value.blockIdent B.blockIdentifier) (fun hc => Key.noConfusion hc)]
    rw [del_upd_same, del_of_none S _ hNoRec, upd_upd_same, upd_self S _ _ hHead]
  simp only [removeBlock, hgb, hrall, storeHeadBlockIdentifier, callWorkersAndCommit_nil]
  rw [hfin]

/-- A store holding only a head pointer at the parent of cexBlock. -/
def wHeadOnlyStore : Store :=
  upd emptyStore Key.headBlock (Value.blockIdent ⟨"h0", 0⟩)

theorem addBlock_removeBlock_involution_witness :
    removeBlock [] (addBlock [] wHeadOnlyStore cexBlock).store cexBlock.blockIdentifier =
      ⟨none, wHeadOnlyStore, [Event.committed]⟩ :=
  addBlock_removeBlock_involution wHeadOnlyStore cexBlock rfl rfl rfl
    (by intro t ht; cases ht)

/-! ### Worker-error atomicity of AddBlock (claim C2) -/

/-- C2: when the staging of a block succeeds but a registered worker's
AddingBlock errors during AddBlock, the call returns that error, the
persisted storage is exactly the pre-call state (the staged block record,
head update, hash marker and reverse-index entries are discarded), and no
commit callback runs (the event trace is empty). -/
theorem addBlock_worker_error_atomic
    (workers : List Worker) (S view : Store) (B : Block) (e : Err)
    (hstage : stageBlock S B = .ok view)
    (hrun : runWorkers workers B true view = .error e) :
    addBlock workers S B = ⟨some e, S, []⟩ := by
  unfold addBlock
  rw [hstage]
  show callWorkersAndCommit workers B S view true = ⟨some e, S, []⟩
  unfold callWorkersAndCommit
  rw [hrun]

/-- A worker whose AddingBlock always fails. -/
def wErrWorker : Worker :=
  ⟨fun _ _ => .error .workerFailed, fun _ s => .ok (s, none)⟩

/-- The staged view of adding cexBlock to the empty store. -/
def wStagedEmpty : Store :=
  upd (upd (upd emptyStore (Key.block "h1" 1) (Value.blockVal cexBlock))
    Key.headBlock (Value.blockIdent ⟨"h1", 1⟩)) (Key.blockHash "h1") Value.marker

theorem addBlock_worker_error_atomic_witness :
    stageBlock emptyStore cexBlock = .ok wStagedEmpty ∧
    addBlock [wErrWorker] emptyStore cexBlock = ⟨some Err.workerFailed, emptyStore, []⟩ :=
  ⟨rfl, addBlock_worker_error_atomic [wErrWorker] emptyStore wStagedEmpty cexBlock
    Err.workerFailed rfl rfl⟩

/-! ### Duplicate block-hash guard and hash uniqueness (claim C3) -/

/-- Every stored block record has its presence marker in the block-hash
namespace. -/
def blockHashMarked (S : Store) : Prop :=
  ∀ (h : String) (i : Int) (b : Block),
    S (Key.block h i) = some (Value.blockVal b) →
    S (Key.blockHash h) = some Value.marker

/-- At most one stored block record per hash. -/
def blockHashUnique (S : Store) : Prop :=
  ∀ (h : String) (i j : Int) (b c : Block),
    S (Key.block h i) = some (Value.blockVal b) →
    S (Key.block h j) = some (Value.blockVal c) → i = j

theorem getBlock_ok (S : Store) (bid : BlockIdentifier) (b : Block)
    (h : getBlock S bid = .ok b) :
    S (Key.block bid.hash bid.index) = some (Value.blockVal b) := by
  simp only [getBlock] at h
  match hv : S (Key.block bid.hash bid.index) with
  | none => rw [hv] at h; cases h
  | some (Value.blockVal b2) => rw [hv] at h; cases h; rfl
  | some (Value.blockIdent x) => rw [hv] at h; cases h
  | some Value.marker => rw [hv] at h; cases h
  | some (Value.txMap x) => rw [hv] at h; cases h
  | some (Value.coinVal x) => rw [hv] at h; cases h
  | some (Value.coinSet x) => rw [hv] at h; cases h

theorem stageBlock_dup (S : Store) (B : Block) (v : Value)
    (h : S (Key.blockHash B.blockIdentifier.hash) = some v) :
    stageBlock S B = .error .duplicateBlockHash := by
  have h2 : (upd (upd S (Key.block B.blockIdentifier.hash B.blockIdentifier.index)
      (Value.blockVal B)) Key.headBlock (Value.blockIdent B.blockIdentifier))
      (Key.blockHash B.blockIdentifier.hash) = some v := by
    simp [upd, h]
  simp only [stageBlock, storeHeadBlockIdentifier, storeBlockHash, h2]

theorem addBlock_dup_fails (workers : List Worker) (S : Store) (B : Block)
    (h2 : String) (i : Int) (b : Block) (hmarked : blockHashMarked S)
    (hrec : S (Key.block h2 i) = some (Value.blockVal b))
    (hhash : B.blockIdentifier.hash = h2) :
    addBlock workers S B = ⟨some Err.duplicateBlockHash, S, []⟩ := by
  have hm := hmarked h2 i b hrec
  have hm2 : S (Key.blockHash B.blockIdentifier.hash) = some Value.marker := by
    rw [hhash]; exact hm
  have hstage := stageBlock_dup S B Value.marker hm2
  unfold addBlock
  rw [hstage]

theorem addBlock_nil_hash_inv (S : Store) (B : Block)
    (hmarked : blockHashMarked S) (huniq : blockHashUnique S)
    (herr : (addBlock [] S B).err = none) :
    blockHashMarked (addBlock [] S B).store ∧ blockHashUnique (addBlock [] S B).store := by
  rcases addBlock_nil_err_decomp S B herr with ⟨view, hst, hadd⟩
  rcases stageBlock_ok_decomp S B view hst with ⟨hbh, hall⟩
  rw [hadd]
  show blockHashMarked view ∧ blockHashUnique view
  have hfr : ∀ (q : Key), (∀ t ∈ B.transactions, q ≠ Key.txHash t.transactionIdentifier.hash) →
      view q = (upd (upd (upd S (Key.block B.blockIdentifier.hash B.blockIdentifier.index)
        (Value.blockVal B)) Key.headBlock (Value.blockIdent B.blockIdentifier))
        (Key.blockHash B.blockIdentifier.hash) Value.marker) q :=
    fun q hq => storeAll_frame B.blockIdentifier B.transactions _ view hall q hq
  have hmarkerB : view (Key.blockHash B.blockIdentifier.hash) = some Value.marker := by
    rw [hfr _ (fun t ht hc => Key.noConfusion hc)]
    simp [upd]
  have hblock_eval : ∀ (h2 : String) (i : Int) (val : Value),
      view (Key.block h2 i) = some val →
      (Key.block h2 i = Key.block B.blockIdentifier.hash B.blockIdentifier.index ∧
        val = Value.blockVal B) ∨
      (Key.block h2 i ≠ Key.block B.blockIdentifier.hash B.blockIdentifier.index ∧
        S (Key.block h2 i) = some val) := by
    intro h2 i val hb
    rw [hfr _ (fun t ht hc => Key.noConfusion hc)] at hb
    rw [upd_ne _ _ _ _ (fun hc => Key.noConfusion hc),
      upd_ne _ _ _ _ (fun hc => Key.noConfusion hc)] at hb
    by_cases hcase : Key.block h2 i = Key.block B.blockIdentifier.hash B.blockIdentifier.index
    · rw [hcase, upd_same] at hb
      exact Or.inl ⟨hcase, (Option.some.inj hb).symm⟩
    · rw [upd_ne _ _ _ _ hcase] at hb
      exact Or.inr ⟨hcase, hb⟩
  constructor
  · intro h2 i b hb
    rcases hblock_eval h2 i (Value.blockVal b) hb with ⟨hcase, -⟩ | ⟨hcase, hS⟩
    · obtain ⟨hh, -⟩ := Key.block.inj hcase
      rw [hh]
      exact hmarkerB
    · have hmark := hmarked h2 i b hS
      by_cases hh : h2 = B.blockIdentifier.hash
      · rw [hh]; exact hmarkerB
      · rw [hfr _ (fun t ht hc => Key.noConfusion hc)]
        rw [upd_ne _ _ _ _ (fun hc => hh (Key.blockHash.inj hc)),
          upd_ne _ _ _ _ (fun hc => Key.noConfusion hc),
          upd_ne _ _ _ _ (fun hc => Key.noConfusion hc)]
        exact hmark
  · intro h2 i j b c hbi hbj
    rcases hblock_eval h2 i (Value.blockVal b) hbi with ⟨hci, -⟩ | ⟨hci, hSi⟩ <;>
      rcases hblock_eval h2 j (Value.blockVal c) hbj with ⟨hcj, -⟩ | ⟨hcj, hSj⟩
    · obtain ⟨-, hi⟩ := Key.block.inj hci
      obtain ⟨-, hj⟩ := Key.block.inj hcj
      rw [hi, hj]
    · obtain ⟨hh, -⟩ := Key.block.inj hci
      have := hmarked h2 j c hSj
      rw [hh] at this
      rw [this] at hbh
      cases hbh
    · obtain ⟨hh, -⟩ := Key.block.inj hcj
      have := hmarked h2 i b hSi
      rw [hh] at this
      rw [this] at hbh
      cases hbh
    · exact huniq h2 i j b c hSi hSj

theorem removeBlock_nil_of (S : Store) (bid : BlockIdentifier) (b : Block) (w1 : Store)
    (hgb : getBlock S bid = .ok b)
    (hra : removeAllTransactionHashes bid S b.transactions = .ok w1) :
    removeBlock [] S bid = ⟨none,
      upd (del (del w1 (Key.blockHash bid.hash)) (Key.block bid.hash bid.index))
        Key.headBlock (Value.blockIdent b.parentBlockIdentifier), [Event.committed]⟩ := by
  simp only [removeBlock, hgb, hra, storeHeadBlockIdentifier, callWorkersAndCommit_nil]

theorem removeBlock_nil_err_decomp (S : Store) (bid : BlockIdentifier)
    (h : (removeBlock [] S bid).err = none) :
    ∃ b w1, getBlock S bid = .ok b ∧
      removeAllTransactionHashes bid S b.transactions = .ok w1 ∧
      removeBlock [] S bid = ⟨none,
        upd (del (del w1 (Key.blockHash bid.hash)) (Key.block bid.hash bid.index))
          Key.headBlock (Value.blockIdent b.parentBlockIdentifier), [Event.committed]⟩ := by
  match hgb : getBlock S bid with
  | .error e =>
    exfalso
    unfold removeBlock at h
    rw [hgb] at h
    simp at h
  | .ok b =>
    match hra : removeAllTransactionHashes bid S b.transactions with
    | .error e =>
      exfalso
      unfold removeBlock at h
      rw [hgb] at h
      simp only [hra] at h
      simp at h
    | .ok w1 => exact ⟨b, w1, rfl, hra, removeBlock_nil_of S bid b w1 hgb hra⟩

/-- Evaluation of the post-RemoveBlock store at a block-record key. -/
theorem removed_store_block_eval (S w1 : Store) (bid parent : BlockIdentifier)
    (h2 : String) (i : Int) (val : Value)
    (hW : w1 (Key.block h2 i) = S (Key.block h2 i))
    (hb : upd (del (del w1 (Key.blockHash bid.hash)) (Key.block bid.hash bid.index))
      Key.headBlock (Value.blockIdent parent) (Key.block h2 i) = some val) :
    S (Key.block h2 i) = some val ∧ Key.block h2 i ≠ Key.block bid.hash bid.index := by
  rw [upd_ne _ _ _ _ (fun hc => Key.noConfusion hc)] at hb
  by_cases hcase : Key.block h2 i = Key.block bid.hash bid.index
  · rw [hcase, del_same] at hb
    cases hb
  · rw [del_ne _ _ _ hcase, del_ne _ _ _ (fun hc => Key.noConfusion hc), hW] at hb
    exact ⟨hb, hcase⟩

theorem removeBlock_nil_hash_inv (S : Store) (bid : BlockIdentifier)
    (hmarked : blockHashMarked S) (huniq : blockHashUnique S)
    (herr : (removeBlock [] S bid).err = none) :
    blockHashMarked (removeBlock [] S bid).store ∧
      blockHashUnique (removeBlock [] S bid).store := by
  rcases removeBlock_nil_err_decomp S bid herr with ⟨b, w1, hgb, hra, heq⟩
  have hSb := getBlock_ok S bid b hgb
  rw [heq]
  show blockHashMarked (upd (del (del w1 (Key.blockHash bid.hash))
      (Key.block bid.hash bid.index)) Key.headBlock
      (Value.blockIdent b.parentBlockIdentifier)) ∧
    blockHashUnique (upd (del (del w1 (Key.blockHash bid.hash))
      (Key.block bid.hash bid.index)) Key.headBlock
      (Value.blockIdent b.parentBlockIdentifier))
  have hWb : ∀ (h2 : String) (i : Int), w1 (Key.block h2 i) = S (Key.block h2 i) :=
    fun h2 i => removeAll_frame bid b.transactions S w1 hra _
      (fun t ht hc => Key.noConfusion hc)
  constructor
  · intro h2 i b2 hb2
    obtain ⟨hS2, hcase⟩ := removed_store_block_eval S w1 bid
      b.parentBlockIdentifier h2 i (Value.blockVal b2) (hWb h2 i) hb2
    have hmark := hmarked h2 i b2 hS2
    have hh : h2 ≠ bid.hash := by
      intro hh2
      subst hh2
      have hij := huniq bid.hash i bid.index b2 b hS2 hSb
      exact hcase (by rw [hij])
    rw [upd_ne _ _ _ _ (fun hc => Key.noConfusion hc),
      del_ne _ _ _ (fun hc => Key.noConfusion hc),
      del_ne _ _ _ (fun hc => hh (Key.blockHash.inj hc)),
      removeAll_frame bid b.transactions S w1 hra _ (fun t ht hc => Key.noConfusion hc)]
    exact hmark
  · intro h2 i j b2 c2 h1 h2'
    obtain ⟨hS1, -⟩ := removed_store_block_eval S w1 bid
      b.parentBlockIdentifier h2 i (Value.blockVal b2) (hWb h2 i) h1
    obtain ⟨hS2, -⟩ := removed_store_block_eval S w1 bid
      b.parentBlockIdentifier h2 j (Value.blockVal c2) (hWb h2 j) h2'
    exact huniq h2 i j b2 c2 hS1 hS2

/-- C3: adding any block whose hash already has a stored block record (in a
state satisfying the marker invariant) fails with DuplicateBlockHash and
leaves storage, and the event trace, unchanged; and both AddBlock and
RemoveBlock commits preserve the marker invariant and the
at-most-one-block-per-hash invariant. -/
theorem addBlock_duplicate_guard :
    (∀ (workers : List Worker) (S : Store) (B : Block) (h2 : String) (i : Int) (b : Block),
      blockHashMarked S → S (Key.block h2 i) = some (Value.blockVal b) →
      B.blockIdentifier.hash = h2 →
      addBlock workers S B = ⟨some Err.duplicateBlockHash, S, []⟩) ∧
    (∀ (S : Store) (B : Block), blockHashMarked S → blockHashUnique S →
      (addBlock [] S B).err = none →
      blockHashMarked (addBlock [] S B).store ∧ blockHashUnique (addBlock [] S B).store) ∧
    (∀ (S : Store) (bid : BlockIdentifier), blockHashMarked S → blockHashUnique S →
      (removeBlock [] S bid).err = none →
      blockHashMarked (removeBlock [] S bid).store ∧
        blockHashUnique (removeBlock [] S bid).store) :=
  ⟨addBlock_dup_fails, addBlock_nil_hash_inv, removeBlock_nil_hash_inv⟩

/-- A second block reusing the stored hash h1. -/
def wDupBlock : Block := ⟨⟨"h1", 2⟩, ⟨"h1", 1⟩, 6, []⟩

theorem addBlock_duplicate_guard_witness :
    addBlock [] wStagedEmpty wDupBlock =
      ⟨some Err.duplicateBlockHash, wStagedEmpty, []⟩ ∧
    (blockHashMarked (addBlock [] emptyStore cexBlock).store ∧
      blockHashUnique (addBlock [] emptyStore cexBlock).store) ∧
    (blockHashMarked (removeBlock [] wStagedEmpty ⟨"h1", 1⟩).store ∧
      blockHashUnique (removeBlock [] wStagedEmpty ⟨"h1", 1⟩).store) := by
  have hmarked : blockHashMarked wStagedEmpty := by
    intro h i b hb
    by_cases hh : h = "h1"
    · subst hh; rfl
    · exfalso
      simp [wStagedEmpty, upd, emptyStore, hh] at hb
  have huniq : blockHashUnique wStagedEmpty := by
    intro h i j b c h1 h2
    simp [wStagedEmpty, upd, emptyStore] at h1 h2
    obtain ⟨⟨-, hi⟩, -⟩ := h1
    obtain ⟨⟨-, hj⟩, -⟩ := h2
    rw [hi, hj]
  refine ⟨addBlock_duplicate_guard.1 [] wStagedEmpty wDupBlock "h1" 1 cexBlock
      hmarked rfl rfl,
    addBlock_duplicate_guard.2.1 emptyStore cexBlock
      (fun h i b hb => Option.noConfusion hb)
      (fun h i j b c h1 _ => Option.noConfusion h1) rfl,
    addBlock_duplicate_guard.2.2 wStagedEmpty ⟨"h1", 1⟩ hmarked huniq rfl⟩

/-! ### Commit callback ordering (claim C4) -/

/-- The worker index of a callback-run event, if any. -/
def Event.runIdx : Event → Option Nat
  | .committed => none
  | .callbackRun i => some i

theorem runCallbacks_mem (cbs : List (Option Callback)) :
    ∀ (i j : Nat), Event.callbackRun j ∈ (runCallbacks i cbs).2 →
      i ≤ j ∧ ∃ cb, cbs.get? (j - i) = some (some cb) := by
  induction cbs with
  | nil => intro i j h; simp [runCallbacks] at h
  | cons c rest ih =>
    intro i j h
    match c with
    | none =>
      have h2 : runCallbacks i (none :: rest) = runCallbacks (i + 1) rest := rfl
      rw [h2] at h
      obtain ⟨hij, cb, hcb⟩ := ih (i + 1) j h
      refine ⟨by omega, cb, ?_⟩
      have h3 : j - i = (j - (i + 1)) + 1 := by omega
      rw [h3, List.get?_cons_succ]
      exact hcb
    | some (Except.error e) =>
      have h2 : (runCallbacks i (some (Except.error e) :: rest)).2 =
          [Event.callbackRun i] := rfl
      rw [h2] at h
      have h3 : j = i := by
        rcases List.mem_singleton.mp h with h4
        exact Event.callbackRun.inj h4
      subst h3
      exact ⟨le_refl j, Except.error e, by simp⟩
    | some (Except.ok u) =>
      have h2 : (runCallbacks i (some (Except.ok u) :: rest)).2 =
          Event.callbackRun i :: (runCallbacks (i + 1) rest).2 := rfl
      rw [h2] at h
      rcases List.mem_cons.mp h with heq | hmem
      · have h3 : j = i := Event.callbackRun.inj heq
        subst h3
        exact ⟨le_refl j, Except.ok u, by simp⟩
      · obtain ⟨hij, cb, hcb⟩ := ih (i + 1) j hmem
        refine ⟨by omega, cb, ?_⟩
        have h3 : j - i = (j - (i + 1)) + 1 := by omega
        rw [h3, List.get?_cons_succ]
        exact hcb

theorem runCallbacks_chain (cbs : List (Option Callback)) :
    ∀ (i : Nat),
      List.Chain' (fun a b => a < b)
        ((runCallbacks i cbs).2.filterMap Event.runIdx) ∧
      ∀ j ∈ (runCallbacks i cbs).2.filterMap Event.runIdx, i ≤ j := by
  induction cbs with
  | nil =>
    intro i
    exact ⟨List.chain'_nil, by simp [runCallbacks]⟩
  | cons c rest ih =>
    intro i
    match c with
    | none =>
      have h2 : runCallbacks i (none :: rest) = runCallbacks (i + 1) rest := rfl
      rw [h2]
      obtain ⟨hch, hge⟩ := ih (i + 1)
      exact ⟨hch, fun j hj => by have := hge j hj; omega⟩
    | some (Except.error e) =>
      have h2 : (runCallbacks i (some (Except.error e) :: rest)).2 =
          [Event.callbackRun i] := rfl
      rw [h2]
      constructor
      · simp [Event.runIdx]
      · intro j hj
        simp [Event.runIdx] at hj
        omega
    | some (Except.ok u) =>
      have h2 : (runCallbacks i (some (Except.ok u) :: rest)).2 =
          Event.callbackRun i :: (runCallbacks (i + 1) rest).2 := rfl
      rw [h2]
      obtain ⟨hch, hge⟩ := ih (i + 1)
      constructor
      · rw [List.filterMap_cons]
        simp only [Event.runIdx]
        rw [List.chain'_cons']
        refine ⟨?_, hch⟩
        intro b hb
        have hmemb : b ∈ (runCallbacks (i + 1) rest).2.filterMap Event.runIdx :=
          List.mem_of_mem_head? hb
        have := hge b hmemb
        omega
      · intro j hj
        rw [List.filterMap_cons] at hj
        simp only [Event.runIdx] at hj
        rcases List.mem_cons.mp hj with heq | hmem
        · omega
        · have := hge j hmem
          omega

theorem runCallbacks_err (cbs : List (Option Callback)) :
    ∀ (i : Nat) (e : Err), (runCallbacks i cbs).1 = some e →
      ∃ j, Event.callbackRun j ∈ (runCallbacks i cbs).2 ∧
        cbs.get? (j - i) = some (some (Except.error e)) := by
  induction cbs with
  | nil => intro i e h; simp [runCallbacks] at h
  | cons c rest ih =>
    intro i e h
    match c with
    | none =>
      have h2 : runCallbacks i (none :: rest) = runCallbacks (i + 1) rest := rfl
      rw [h2] at h ⊢
      obtain ⟨j, hmem, hget⟩ := ih (i + 1) e h
      obtain ⟨hij, -⟩ := runCallbacks_mem rest (i + 1) j hmem
      refine ⟨j, hmem, ?_⟩
      have h3 : j - i = (j - (i + 1)) + 1 := by omega
      rw [h3, List.get?_cons_succ]
      exact hget
    | some (Except.error e2) =>
      have h2 : runCallbacks i (some (Except.error e2) :: rest) =
          (some e2, [Event.callbackRun i]) := rfl
      rw [h2] at h ⊢
      have h3 : e2 = e := Option.some.inj h
      subst h3
      exact ⟨i, List.mem_singleton.mpr rfl, by simp⟩
    | some (Except.ok u) =>
      have h2 : runCallbacks i (some (Except.ok u) :: rest) =
          ((runCallbacks (i + 1) rest).1,
            Event.callbackRun i :: (runCallbacks (i + 1) rest).2) := rfl
      rw [h2] at h ⊢
      obtain ⟨j, hmem, hget⟩ := ih (i + 1) e h
      obtain ⟨hij, -⟩ := runCallbacks_mem rest (i + 1) j hmem
      refine ⟨j, List.mem_cons_of_mem _ hmem, ?_⟩
      have h3 : j - i = (j - (i + 1)) + 1 := by omega
      rw [h3, List.get?_cons_succ]
      exact hget

theorem runCallbacks_none (cbs : List (Option Callback)) :
    ∀ (i : Nat), (runCallbacks i cbs).1 = none →
      ∀ (j : Nat) (cb : Callback), cbs.get? j = some (some cb) →
        Event.callbackRun (i + j) ∈ (runCallbacks i cbs).2 := by
  induction cbs with
  | nil => intro i _ j cb hget; simp at hget
  | cons c rest ih =>
    intro i hnone j cb hget
    match c with
    | none =>
      have h2 : runCallbacks i (none :: rest) = runCallbacks (i + 1) rest := rfl
      rw [h2] at hnone ⊢
      match j with
      | 0 => simp at hget
      | Nat.succ j2 =>
        rw [List.get?_cons_succ] at hget
        have := ih (i + 1) hnone j2 cb hget
        have h3 : i + (j2 + 1) = (i + 1) + j2 := by omega
        rw [h3]
        exact this
    | some (Except.error e2) =>
      have h2 : runCallbacks i (some (Except.error e2) :: rest) =
          (some e2, [Event.callbackRun i]) := rfl
      rw [h2] at hnone
      cases hnone
    | some (Except.ok u) =>
      have h2 : runCallbacks i (some (Except.ok u) :: rest) =
          ((runCallbacks (i + 1) rest).1,
            Event.callbackRun i :: (runCallbacks (i + 1) rest).2) := rfl
      rw [h2] at hnone ⊢
      match j with
      | 0 => exact List.mem_cons_self _ _
      | Nat.succ j2 =>
        rw [List.get?_cons_succ] at hget
        have := ih (i + 1) hnone j2 cb hget
        have h3 : i + (j2 + 1) = (i + 1) + j2 := by omega
        rw [h3]
        exact List.mem_cons_of_mem _ this

/-- C4: when every worker succeeds, the commit callbacks run only after the
transaction commit (the commit event heads the trace), in strictly
increasing worker-registration order with nil callback slots skipped; a
callback error is propagated as the call's error while the committed store
remains the persisted state; and with no error every non-nil callback has
run. -/
theorem callbacks_after_commit (workers : List Worker) (b : Block)
    (base view : Store) (adding : Bool) (vf : Store) (cbs : List (Option Callback))
    (hrun : runWorkers workers b adding view = .ok (vf, cbs)) :
    (callWorkersAndCommit workers b base view adding).store = vf ∧
    (callWorkersAndCommit workers b base view adding).events.head? =
      some Event.committed ∧
    List.Chain' (fun x y => x < y)
      ((callWorkersAndCommit workers b base view adding).events.filterMap Event.runIdx) ∧
    (∀ j, Event.callbackRun j ∈ (callWorkersAndCommit workers b base view adding).events →
      ∃ cb, cbs.get? j = some (some cb)) ∧
    (∀ e, (callWorkersAndCommit workers b base view adding).err = some e →
      ∃ j, Event.callbackRun j ∈ (callWorkersAndCommit workers b base view adding).events ∧
        cbs.get? j = some (some (Except.error e))) ∧
    ((callWorkersAndCommit workers b base view adding).err = none →
      ∀ (j : Nat) (cb : Callback), cbs.get? j = some (some cb) →
        Event.callbackRun j ∈ (callWorkersAndCommit workers b base view adding).events) := by
  have hc : callWorkersAndCommit workers b base view adding =
      ⟨(runCallbacks 0 cbs).1, vf, Event.committed :: (runCallbacks 0 cbs).2⟩ := by
    unfold callWorkersAndCommit
    rw [hrun]
  rw [hc]
  refine ⟨rfl, rfl, ?_, ?_, ?_, ?_⟩
  · show List.Chain' (fun x y => x < y)
      ((Event.committed :: (runCallbacks 0 cbs).2).filterMap Event.runIdx)
    rw [List.filterMap_cons]
    simp only [Event.runIdx]
    exact (runCallbacks_chain cbs 0).1
  · intro j hj
    rcases List.mem_cons.mp hj with heq | hmem
    · cases heq
    · obtain ⟨-, cb, hcb⟩ := runCallbacks_mem cbs 0 j hmem
      exact ⟨cb, by simpa using hcb⟩
  · intro e he
    obtain ⟨j, hmem, hget⟩ := runCallbacks_err cbs 0 e he
    exact ⟨j, List.mem_cons_of_mem _ hmem, by simpa using hget⟩
  · intro hnone j cb hget
    have hm := runCallbacks_none cbs 0 hnone j cb hget
    rw [Nat.zero_add] at hm
    exact List.mem_cons_of_mem _ hm

/-- A worker returning a callback that reports success. -/
def wCbWorker : Worker :=
  ⟨fun _ s => .ok (s, some (Except.ok ())), fun _ s => .ok (s, none)⟩

theorem callbacks_after_commit_witness :
    (callWorkersAndCommit [wCbWorker] cexBlock emptyStore emptyStore true).store =
      emptyStore ∧
    (callWorkersAndCommit [wCbWorker] cexBlock emptyStore emptyStore true).events.head? =
      some Event.committed ∧
    Event.callbackRun 0 ∈
      (callWorkersAndCommit [wCbWorker] cexBlock emptyStore emptyStore true).events := by
  have h := callbacks_after_commit [wCbWorker] cexBlock emptyStore emptyStore true
    emptyStore [some (Except.ok ())] rfl
  exact ⟨h.1, h.2.1, h.2.2.2.2.2 rfl 0 (Except.ok ()) rfl⟩

/-! ### Duplicate transaction hash within a block (claim C6) -/

/-- A stored value under a transaction-hash key that decodes as the
reverse-index mapping type (or is absent). -/
def txValOk : Option Value → Bool
  | none => true
  | some (Value.txMap _) => true
  | some _ => false

theorem storeAll_err_kind (bid : BlockIdentifier) (txs : List Transaction) :
    ∀ (v : Store),
      (∀ t ∈ txs, txValOk (v (Key.txHash t.transactionIdentifier.hash)) = true) →
      (∃ out, storeAllTransactionHashes bid v txs = .ok out) ∨
        storeAllTransactionHashes bid v txs = .error .duplicateTransactionHash := by
  induction txs with
  | nil => intro v _; exact Or.inl ⟨v, rfl⟩
  | cons t0 rest ih =>
    intro v hv
    have ht0 := hv t0 (List.mem_cons_self _ _)
    match hvv : v (Key.txHash t0.transactionIdentifier.hash) with
    | none =>
      have hstep : storeTransactionHash bid v t0.transactionIdentifier =
          .ok (upd v (Key.txHash t0.transactionIdentifier.hash)
            (Value.txMap [(bid.hash, bid.index)])) := by
        simp [storeTransactionHash, hvv]
      have hrest : ∀ t ∈ rest,
          txValOk ((upd v (Key.txHash t0.transactionIdentifier.hash)
            (Value.txMap [(bid.hash, bid.index)]))
            (Key.txHash t.transactionIdentifier.hash)) = true := by
        intro t ht
        by_cases hk : Key.txHash t.transactionIdentifier.hash =
            Key.txHash t0.transactionIdentifier.hash
        · rw [hk, upd_same]; rfl
        · rw [upd_ne _ _ _ _ hk]
          exact hv t (List.mem_cons_of_mem _ ht)
      simp only [storeAllTransactionHashes, hstep]
      exact ih _ hrest
    | some (Value.txMap m) =>
      by_cases hm : mapHasKey m bid.hash = true
      · have hstep : storeTransactionHash bid v t0.transactionIdentifier =
            .error .duplicateTransactionHash := by
          simp [storeTransactionHash, hvv, hm]
        simp only [storeAllTransactionHashes, hstep]
        exact Or.inr trivial
      · have hstep : storeTransactionHash bid v t0.transactionIdentifier =
            .ok (upd v (Key.txHash t0.transactionIdentifier.hash)
              (Value.txMap (m ++ [(bid.hash, bid.index)]))) := by
          simp [storeTransactionHash, hvv, hm]
        have hrest : ∀ t ∈ rest,
            txValOk ((upd v (Key.txHash t0.transactionIdentifier.hash)
              (Value.txMap (m ++ [(bid.hash, bid.index)])))
              (Key.txHash t.transactionIdentifier.hash)) = true := by
          intro t ht
          by_cases hk : Key.txHash t.transactionIdentifier.hash =
              Key.txHash t0.transactionIdentifier.hash
          · rw [hk, upd_same]; rfl
          · rw [upd_ne _ _ _ _ hk]
            exact hv t (List.mem_cons_of_mem _ ht)
        simp only [storeAllTransactionHashes, hstep]
        exact ih _ hrest
    | some (Value.blockIdent x) => rw [hvv] at ht0; simp [txValOk] at ht0
    | some (Value.blockVal x) => rw [hvv] at ht0; simp [txValOk] at ht0
    | some Value.marker => rw [hvv] at ht0; simp [txValOk] at ht0
    | some (Value.coinVal x) => rw [hvv] at ht0; simp [txValOk] at ht0
    | some (Value.coinSet x) => rw [hvv] at ht0; simp [txValOk] at ht0

/-- C6: a block whose transaction list repeats a transaction hash makes
AddBlock fail with DuplicateTransactionHash leaving storage and the event
trace unchanged (in any state where the block hash is fresh and the
touched reverse-index values decode); and conversely any committed block
has pairwise distinct transaction hashes. -/
theorem addBlock_duplicate_tx_hash :
    (∀ (workers : List Worker) (S : Store) (B : Block),
      S (Key.blockHash B.blockIdentifier.hash) = none →
      (∀ t ∈ B.transactions,
        txValOk (S (Key.txHash t.transactionIdentifier.hash)) = true) →
      ¬ List.Pairwise (fun a b =>
          a.transactionIdentifier.hash ≠ b.transactionIdentifier.hash) B.transactions →
      addBlock workers S B = ⟨some Err.duplicateTransactionHash, S, []⟩) ∧
    (∀ (workers : List Worker) (S : Store) (B : Block),
      Event.committed ∈ (addBlock workers S B).events →
      List.Pairwise (fun a b =>
        a.transactionIdentifier.hash ≠ b.transactionIdentifier.hash) B.transactions) := by
  constructor
  · intro workers S B hbh htx hdup
    have hbh2 : (upd (upd S (Key.block B.blockIdentifier.hash B.blockIdentifier.index)
        (Value.blockVal B)) Key.headBlock (Value.blockIdent B.blockIdentifier))
        (Key.blockHash B.blockIdentifier.hash) = none := by
      simp [upd, hbh]
    have hsb : storeBlockHash
        (upd (upd S (Key.block B.blockIdentifier.hash B.blockIdentifier.index)
          (Value.blockVal B)) Key.headBlock (Value.blockIdent B.blockIdentifier))
        B.blockIdentifier =
        .ok (upd (upd (upd S (Key.block B.blockIdentifier.hash B.blockIdentifier.index)
          (Value.blockVal B)) Key.headBlock (Value.blockIdent B.blockIdentifier))
          (Key.blockHash B.blockIdentifier.hash) Value.marker) := by
      simp [storeBlockHash, hbh2]
    have htx3 : ∀ t ∈ B.transactions,
        txValOk ((upd (upd (upd S (Key.block B.blockIdentifier.hash B.blockIdentifier.index)
          (Value.blockVal B)) Key.headBlock (Value.blockIdent B.blockIdentifier))
          (Key.blockHash B.blockIdentifier.hash) Value.marker)
          (Key.txHash t.transactionIdentifier.hash)) = true := by
      intro t ht
      have hkey : (upd (upd (upd S (Key.block B.blockIdentifier.hash B.blockIdentifier.index)
          (Value.blockVal B)) Key.headBlock (Value.blockIdent B.blockIdentifier))
          (Key.blockHash B.blockIdentifier.hash) Value.marker)
          (Key.txHash t.transactionIdentifier.hash) =
          S (Key.txHash t.transactionIdentifier.hash) := by
        simp [upd]
      rw [hkey]
      exact htx t ht
    rcases storeAll_err_kind B.blockIdentifier B.transactions _ htx3 with ⟨out, hok⟩ | herr
    · exact absurd (storeAll_pairwise B.blockIdentifier B.transactions _ out hok) hdup
    · have hstage : stageBlock S B = .error .duplicateTransactionHash := by
        simp only [stageBlock, storeHeadBlockIdentifier, hsb]
        exact herr
      unfold addBlock
      rw [hstage]
  · intro workers S B hmem
    match hst : stageBlock S B with
    | .error e =>
      exfalso
      unfold addBlock at hmem
      rw [hst] at hmem
      simp at hmem
    | .ok view =>
      exact storeAll_pairwise B.blockIdentifier B.transactions _ view
        (stageBlock_ok_decomp S B view hst).2

/-- A block repeating the transaction hash tx3. -/
def wDupTxBlock : Block :=
  ⟨⟨"h2", 2⟩, ⟨"h1", 1⟩, 7, [⟨⟨"tx3"⟩, []⟩, ⟨⟨"tx3"⟩, []⟩]⟩

/-- A block with a single transaction tx1. -/
def wTxBlock : Block := ⟨⟨"h1", 1⟩, ⟨"h0", 0⟩, 5, [⟨⟨"tx1"⟩, []⟩]⟩

theorem addBlock_duplicate_tx_hash_witness :
    addBlock [] emptyStore wDupTxBlock =
      ⟨some Err.duplicateTransactionHash, emptyStore, []⟩ ∧
    List.Pairwise (fun a b =>
      a.transactionIdentifier.hash ≠ b.transactionIdentifier.hash)
      wTxBlock.transactions := by
  constructor
  · refine addBlock_duplicate_tx_hash.1 [] emptyStore wDupTxBlock rfl (by decide) ?_
    intro hp
    rcases List.pairwise_cons.mp hp with ⟨hfst, -⟩
    exact hfst _ (List.mem_cons_self _ _) rfl
  · exact addBlock_duplicate_tx_hash.2 [] emptyStore wTxBlock
      (List.mem_singleton.mpr rfl)

/-! ### SetNewStartIndex (claim C7) -/

/-- Every stored block record sits under the key of its own identifier. -/
def wfStoredIds (S : Store) : Prop :=
  ∀ (h : String) (i : Int) (b : Block),
    S (Key.block h i) = some (Value.blockVal b) → b.blockIdentifier = ⟨h, i⟩

theorem BlockIdentifier.eta (c : BlockIdentifier) :
    BlockIdentifier.mk c.hash c.index = c := rfl

theorem removeBlock_nil_wf (S : Store) (bid : BlockIdentifier)
    (hwf : wfStoredIds S) (herr : (removeBlock [] S bid).err = none) :
    wfStoredIds (removeBlock [] S bid).store := by
  rcases removeBlock_nil_err_decomp S bid herr with ⟨b, w1, hgb, hra, heq⟩
  rw [heq]
  intro h i b2 hb2
  obtain ⟨hS, -⟩ := removed_store_block_eval S w1 bid b.parentBlockIdentifier h i
    (Value.blockVal b2)
    (removeAll_frame bid b.transactions S w1 hra _ (fun t ht hc => Key.noConfusion hc))
    hb2
  exact hwf h i b2 hS

theorem removeBlocksLoop_stop (workers : List Worker) (fuel : Nat) (S : Store)
    (curr : BlockIdentifier) (startIndex : Int) (removed : List BlockIdentifier)
    (h : curr.index < startIndex) :
    removeBlocksLoop workers fuel S curr startIndex removed = .ok (S, removed) := by
  unfold removeBlocksLoop
  rw [if_pos h]

theorem removeBlocksLoop_fuel0 (workers : List Worker) (S : Store)
    (curr : BlockIdentifier) (startIndex : Int) (removed : List BlockIdentifier)
    (h : ¬ curr.index < startIndex) :
    removeBlocksLoop workers 0 S curr startIndex removed = .error .outOfFuel := by
  unfold removeBlocksLoop
  rw [if_neg h]

theorem removeBlocksLoop_go_err (workers : List Worker) (fuel1 : Nat) (S : Store)
    (curr : BlockIdentifier) (startIndex : Int) (removed : List BlockIdentifier)
    (e : Err) (h : ¬ curr.index < startIndex) (hgb : getBlock S curr = .error e) :
    removeBlocksLoop workers (Nat.succ fuel1) S curr startIndex removed = .error e := by
  conv_lhs => unfold removeBlocksLoop
  rw [if_neg h, hgb]

theorem removeBlocksLoop_go_ok (workers : List Worker) (fuel1 : Nat) (S : Store)
    (curr : BlockIdentifier) (startIndex : Int) (removed : List BlockIdentifier)
    (b : Block) (h : ¬ curr.index < startIndex) (hgb : getBlock S curr = .ok b) :
    removeBlocksLoop workers (Nat.succ fuel1) S curr startIndex removed =
      (match (removeBlock workers S b.blockIdentifier).err with
      | some e => .error e
      | none =>
        removeBlocksLoop workers fuel1 (removeBlock workers S b.blockIdentifier).store
          b.parentBlockIdentifier startIndex (removed ++ [b.blockIdentifier])) := by
  conv_lhs => unfold removeBlocksLoop
  rw [if_neg h, hgb]

theorem removeBlocksLoop_ge (fuel : Nat) :
    ∀ (S : Store) (curr : BlockIdentifier) (startIndex : Int)
      (removed : List BlockIdentifier) (S2 : Store) (out : List BlockIdentifier),
      wfStoredIds S →
      removeBlocksLoop [] fuel S curr startIndex removed = .ok (S2, out) →
      (∀ id2 ∈ removed, startIndex ≤ id2.index) →
      ∀ id2 ∈ out, startIndex ≤ id2.index := by
  induction fuel with
  | zero =>
    intro S curr startIndex removed S2 out hwf hok hrem
    by_cases hlt : curr.index < startIndex
    · rw [removeBlocksLoop_stop [] 0 S curr startIndex removed hlt] at hok
      simp only [Except.ok.injEq, Prod.mk.injEq] at hok
      obtain ⟨-, hout⟩ := hok
      rw [← hout]
      exact hrem
    · rw [removeBlocksLoop_fuel0 [] S curr startIndex removed hlt] at hok
      cases hok
  | succ fuel1 ih =>
    intro S curr startIndex removed S2 out hwf hok hrem
    by_cases hlt : curr.index < startIndex
    · rw [removeBlocksLoop_stop [] (Nat.succ fuel1) S curr startIndex removed hlt] at hok
      simp only [Except.ok.injEq, Prod.mk.injEq] at hok
      obtain ⟨-, hout⟩ := hok
      rw [← hout]
      exact hrem
    · match hgb : getBlock S curr with
      | .error e =>
        rw [removeBlocksLoop_go_err [] fuel1 S curr startIndex removed e hlt hgb] at hok
        cases hok
      | .ok b =>
        rw [removeBlocksLoop_go_ok [] fuel1 S curr startIndex removed b hlt hgb] at hok
        match herr : (removeBlock [] S b.blockIdentifier).err with
        | some e => rw [herr] at hok; cases hok
        | none =>
          rw [herr] at hok
          have hwf2 := removeBlock_nil_wf S b.blockIdentifier hwf herr
          have hbid : b.blockIdentifier = curr := by
            rw [hwf curr.hash curr.index b (getBlock_ok S curr b hgb)]
          have hrem2 : ∀ id2 ∈ removed ++ [b.blockIdentifier], startIndex ≤ id2.index := by
            intro id2 hid
            rcases List.mem_append.mp hid with h1 | h1
            · exact hrem id2 h1
            · rw [List.mem_singleton.mp h1, hbid]
              exact le_of_not_lt hlt
          exact ih (removeBlock [] S b.blockIdentifier).store b.parentBlockIdentifier
            startIndex (removed ++ [b.blockIdentifier]) S2 out hwf2 hok hrem2

theorem setNewStartIndex_head (workers : List Worker) (fuel : Nat) (S : Store)
    (startIndex : Int) (head : BlockIdentifier)
    (hg : getHeadBlockIdentifier S = .ok head) :
    setNewStartIndex workers fuel S startIndex =
      if head.index < startIndex then .error .lastProcessedBlock
      else removeBlocksLoop workers fuel S head startIndex [] := by
  unfold setNewStartIndex
  rw [hg]

/-- C7: SetNewStartIndex is a no-op returning success when no head block
exists; fails with the last-processed-block error when the head's index is
below startIndex; and otherwise (with no workers, on a store whose block
records carry their own key identifiers) every identifier it passed to
RemoveBlock had index at least startIndex. -/
theorem setNewStartIndex_spec :
    (∀ (workers : List Worker) (fuel : Nat) (S : Store) (startIndex : Int),
      S Key.headBlock = none →
      setNewStartIndex workers fuel S startIndex = .ok (S, [])) ∧
    (∀ (workers : List Worker) (fuel : Nat) (S : Store) (startIndex : Int)
      (head : BlockIdentifier), getHeadBlockIdentifier S = .ok head →
      head.index < startIndex →
      setNewStartIndex workers fuel S startIndex = .error .lastProcessedBlock) ∧
    (∀ (fuel : Nat) (S : Store) (startIndex : Int) (S2 : Store)
      (out : List BlockIdentifier), wfStoredIds S →
      setNewStartIndex [] fuel S startIndex = .ok (S2, out) →
      ∀ id2 ∈ out, startIndex ≤ id2.index) := by
  refine ⟨?_, ?_, ?_⟩
  · intro workers fuel S startIndex h
    simp [setNewStartIndex, getHeadBlockIdentifier, h]
  · intro workers fuel S startIndex head hg hlt
    rw [setNewStartIndex_head workers fuel S startIndex head hg, if_pos hlt]
  · intro fuel S startIndex S2 out hwf hok
    match hg : getHeadBlockIdentifier S with
    | .error e =>
      unfold setNewStartIndex at hok
      rw [hg] at hok
      cases e
      case headBlockNotFound =>
        simp only [Except.ok.injEq, Prod.mk.injEq] at hok
        obtain ⟨-, hout⟩ := hok
        intro id2 hid
        rw [← hout] at hid
        cases hid
      all_goals exact Except.noConfusion hok
    | .ok head =>
      rw [setNewStartIndex_head [] fuel S startIndex head hg] at hok
      by_cases hlt : head.index < startIndex
      · rw [if_pos hlt] at hok
        cases hok
      · rw [if_neg hlt] at hok
        exact removeBlocksLoop_ge fuel S head startIndex [] S2 out hwf hok
          (fun id2 hid => absurd hid (List.not_mem_nil id2))

/-- The store left by removing cexBlock from wStagedEmpty. -/
def wAfterRemove : Store :=
  upd (del (del wStagedEmpty (Key.blockHash "h1")) (Key.block "h1" 1))
    Key.headBlock (Value.blockIdent ⟨"h0", 0⟩)

theorem setNewStartIndex_spec_witness :
    setNewStartIndex [] 5 emptyStore 3 = .ok (emptyStore, []) ∧
    setNewStartIndex [] 5 wHeadOnlyStore 5 = .error .lastProcessedBlock ∧
    (1 : Int) ≤ BlockIdentifier.index ⟨"h1", 1⟩ := by
  have hwf : wfStoredIds wStagedEmpty := by
    intro h i b hb
    simp [wStagedEmpty, upd, emptyStore] at hb
    obtain ⟨⟨hh, hi⟩, hbb⟩ := hb
    subst hh
    subst hi
    rw [← hbb]
    rfl
  refine ⟨setNewStartIndex_spec.1 [] 5 emptyStore 3 rfl,
    setNewStartIndex_spec.2.1 [] 5 wHeadOnlyStore 5 ⟨"h0", 0⟩ rfl (by decide),
    setNewStartIndex_spec.2.2 1 wStagedEmpty 1 wAfterRemove
      [⟨"h1", 1⟩] hwf rfl ⟨"h1", 1⟩ (List.mem_singleton.mpr rfl)⟩

/-! ### CreateBlockCache (claim C9) -/

/-- Stored block records carry their key identifier and a parent of
strictly smaller index. -/
def parentIndexLt (S : Store) : Prop :=
  ∀ (h : String) (i : Int) (b : Block),
    S (Key.block h i) = some (Value.blockVal b) →
    b.blockIdentifier = ⟨h, i⟩ ∧ b.parentBlockIdentifier.index < i

theorem blockCacheLoop_abort (S : Store) (fuel : Nat) (curr : BlockIdentifier)
    (cache : List BlockIdentifier) (e : Err) (hgb : getBlock S curr = .error e) :
    blockCacheLoop S (Nat.succ fuel) curr cache = cache := by
  conv_lhs => unfold blockCacheLoop
  rw [hgb]

theorem blockCacheLoop_step (S : Store) (fuel : Nat) (curr : BlockIdentifier)
    (cache : List BlockIdentifier) (b : Block) (hgb : getBlock S curr = .ok b) :
    blockCacheLoop S (Nat.succ fuel) curr cache =
      blockCacheLoop S fuel b.parentBlockIdentifier (b.blockIdentifier :: cache) := by
  conv_lhs => unfold blockCacheLoop
  rw [hgb]

theorem blockCacheLoop_length (S : Store) :
    ∀ (fuel : Nat) (curr : BlockIdentifier) (cache : List BlockIdentifier),
      (blockCacheLoop S fuel curr cache).length ≤ fuel + cache.length := by
  intro fuel
  induction fuel with
  | zero =>
    intro curr cache
    simp [blockCacheLoop]
  | succ f ih =>
    intro curr cache
    match hgb : getBlock S curr with
    | .error e =>
      rw [blockCacheLoop_abort S f curr cache e hgb]
      omega
    | .ok b =>
      rw [blockCacheLoop_step S f curr cache b hgb]
      have h2 := ih b.parentBlockIdentifier (b.blockIdentifier :: cache)
      simp only [List.length_cons] at h2
      omega

theorem blockCacheLoop_chain (S : Store) (hwf : parentIndexLt S) :
    ∀ (fuel : Nat) (curr : BlockIdentifier) (cache : List BlockIdentifier),
      List.Chain' (fun a b => a.index < b.index) cache →
      (∀ y ∈ cache.head?, curr.index < y.index) →
      List.Chain' (fun a b => a.index < b.index) (blockCacheLoop S fuel curr cache) := by
  intro fuel
  induction fuel with
  | zero =>
    intro curr cache hch _
    simpa [blockCacheLoop] using hch
  | succ f ih =>
    intro curr cache hch hhead
    match hgb : getBlock S curr with
    | .error e =>
      rw [blockCacheLoop_abort S f curr cache e hgb]
      exact hch
    | .ok b =>
      rw [blockCacheLoop_step S f curr cache b hgb]
      obtain ⟨hbid, hlt⟩ := hwf curr.hash curr.index b (getBlock_ok S curr b hgb)
      have hbid2 : b.blockIdentifier = curr := by rw [hbid]
      apply ih
      · rw [hbid2, List.chain'_cons']
        exact ⟨hhead, hch⟩
      · intro y hy
        simp only [List.head?_cons, Option.mem_def, Option.some.injEq] at hy
        rw [← hy, hbid2]
        exact hlt

/-- C9: CreateBlockCache returns at most maxSize identifiers; with no head
block it returns the empty list; a failing block load aborts the walk
returning the identifiers collected so far; and on a store whose block
records carry their own identifiers with parents of smaller index, the
result is in strictly ascending index order. -/
theorem createBlockCache_spec :
    (∀ (maxSize : Nat) (S : Store), (createBlockCache maxSize S).length ≤ maxSize) ∧
    (∀ (maxSize : Nat) (S : Store), S Key.headBlock = none →
      createBlockCache maxSize S = []) ∧
    (∀ (S : Store) (fuel : Nat) (curr : BlockIdentifier)
      (cache : List BlockIdentifier) (e : Err), getBlock S curr = .error e →
      blockCacheLoop S (Nat.succ fuel) curr cache = cache) ∧
    (∀ (maxSize : Nat) (S : Store), parentIndexLt S →
      List.Chain' (fun a b => a.index < b.index) (createBlockCache maxSize S)) := by
  refine ⟨?_, ?_, ?_, ?_⟩
  · intro maxSize S
    unfold createBlockCache
    match hg : getHeadBlockIdentifier S with
    | .error e => simp
    | .ok head =>
      have h2 := blockCacheLoop_length S maxSize head []
      simpa using h2
  · intro maxSize S h
    simp [createBlockCache, getHeadBlockIdentifier, h]
  · intro S fuel curr cache e hgb
    exact blockCacheLoop_abort S fuel curr cache e hgb
  · intro maxSize S hwf
    unfold createBlockCache
    match hg : getHeadBlockIdentifier S with
    | .error e => simp
    | .ok head =>
      exact blockCacheLoop_chain S hwf maxSize head [] List.chain'_nil (by simp)

theorem createBlockCache_spec_witness :
    (createBlockCache 2 wStagedEmpty).length ≤ 2 ∧
    createBlockCache 3 emptyStore = [] ∧
    blockCacheLoop emptyStore (Nat.succ 0) ⟨"h9", 9⟩ [] = [] ∧
    List.Chain' (fun a b => a.index < b.index) (createBlockCache 5 wStagedEmpty) := by
  have hwf : parentIndexLt wStagedEmpty := by
    intro h i b hb
    simp [wStagedEmpty, upd, emptyStore] at hb
    obtain ⟨⟨hh, hi⟩, hbb⟩ := hb
    subst hh
    subst hi
    rw [← hbb]
    exact ⟨rfl, by decide⟩
  exact ⟨createBlockCache_spec.1 2 wStagedEmpty,
    createBlockCache_spec.2.1 3 emptyStore rfl,
    createBlockCache_spec.2.2.1 emptyStore 0 ⟨"h9", 9⟩ [] Err.blockNotFound rfl,
    createBlockCache_spec.2.2.2 5 wStagedEmpty hwf⟩
